import Mathlib

/-!
# makerom: ROM layout and image assembly

A shallow embedding of `makerom/makerom.c` (pseultra ROM creator tool).

* C strings are `String`, one character for each byte; they are values, the sizes of
  the buffers that hold them are separate definitions. The name a section stores is
  read back with what follows its buffer, which is one byte short (`create_section`).
  File buffers are lists of bytes (`Fin 256`).
* `uint32_t` values are `Nat`, reduced `% 2 ^ 32` wherever the C arithmetic is.
* The global registry `segments` / `segment_count` is a `List segment`
  (`segment_count` is its length, `segments = NULL` is `[]`).
* An access outside a file buffer or the registry, or the use of a `NULL` pointer, ends
  the run with `Except.error`.
* `get_section` (in `elf.c`) and the declarations of `elf.h`, `util.h` and `n64.h`
  are not part of `makerom.c`; the reader is a parameter of every function that
  calls it, the field offsets and `PI_VALUES` are gathered in `platform`.
-/

namespace Makerom

/-! ## Data model -/

/-- One byte of a loaded file. -/
abbrev Byte := Fin 256

/-- A buffer returned by `open_file`: the bytes of a file. -/
abbrev Buffer := List Byte

/-- The `section` struct of `makerom.h` as `makerom.c` uses it: `filename`, `buffer`.
(The name `section` is reserved in Lean.) -/
structure section_t where
  filename : String
  buffer : Buffer
deriving DecidableEq, Repr

/-- The `segment` struct as `makerom.c` uses it; `section_count` is `sections.length`. -/
structure segment where
  name : String
  sections : List section_t
  rom_start : Nat
  rom_end : Nat
deriving DecidableEq, Repr

/-- The fields of an `elf32_shentry` that `makerom.c` reads, as the raw `uint32_t`
values the host loads (the file stores them big-endian). -/
structure elf32_shentry where
  offset : Nat
  size : Nat
deriving DecidableEq, Repr

/-- The type of `get_section (buffer, name)` of `elf.c`. `none` stands for the fatal
"section not found" exit. -/
abbrev Reader := Buffer → String → Option elf32_shentry

/-- Ways a run can end abnormally. -/
inductive fault where
  | null_deref
  | out_of_bounds
  | section_not_found
deriving DecidableEq, Repr

/-! ## 32-bit helpers -/

/-- Two to the thirty-two, the modulus of `uint32_t`. -/
abbrev U32 : Nat := 2 ^ 32

/-- Modelled from the spec: the byte-order macros of `util.h` are missing from the
sources; the spec describes them as the conversion between the container's big-endian
representation and the (little-endian) host order, that is, the reversal of the four
bytes of a 32-bit value. -/
def bswap32 (x : Nat) : Nat :=
  (x / 2 ^ 24 % 256) + (x / 2 ^ 16 % 256) * 2 ^ 8 + (x / 2 ^ 8 % 256) * 2 ^ 16
    + (x % 256) * 2 ^ 24

/-- Modelled from the spec: `BE_TO_LE32` of `util.h`, a four-byte swap. -/
def BE_TO_LE32 (x : Nat) : Nat := bswap32 x

/-- Modelled from the spec: `LE_TO_BE32` of `util.h`, a four-byte swap. -/
def LE_TO_BE32 (x : Nat) : Nat := bswap32 x

/-! ## `calculate_rom_layout` -/

/-- The inner loop of `calculate_rom_layout` (lines 90-95): starting from the current
`segment_size`, add `BE_TO_LE32(text.size) + BE_TO_LE32(data.size)` for every section,
in `uint32_t` arithmetic. -/
def sum_section_sizes (get_section : Reader) :
    List section_t → Nat → Option Nat
  | [], segment_size => some segment_size
  | sec :: rest, segment_size =>
    match get_section sec.buffer ".text", get_section sec.buffer ".data" with
    | some text, some data =>
      sum_section_sizes get_section rest
        ((segment_size + (BE_TO_LE32 text.size + BE_TO_LE32 data.size) % U32) % U32)
    | _, _ => none

/-- The outer loop of `calculate_rom_layout` (lines 86-102) from a given value of
`rom_location_counter`. -/
def layout_from (get_section : Reader) :
    List segment → Nat → Option (List segment)
  | [], _ => some []
  | seg :: rest, rom_location_counter =>
    match sum_section_sizes get_section seg.sections 0 with
    | none => none
    | some segment_size =>
      let next := (rom_location_counter + segment_size) % U32
      match layout_from get_section rest next with
      | none => none
      | some rest' =>
        some ({ seg with rom_start := rom_location_counter, rom_end := next } :: rest')

/-- The function `calculate_rom_layout`: the counter starts at `0x1000`. -/
def calculate_rom_layout (get_section : Reader) (segments : List segment) :
    Option (List segment) :=
  layout_from get_section segments 0x1000

/-! ## Memory access -/

/-- The four bytes of a 32-bit value in host (little-endian) order. -/
def bytes_le (v : Nat) : List Byte :=
  [Fin.ofNat (v % 256), Fin.ofNat (v / 2 ^ 8 % 256), Fin.ofNat (v / 2 ^ 16 % 256),
    Fin.ofNat (v / 2 ^ 24 % 256)]

/-- Little-endian value of a byte string: what the host loads from it. -/
def le32 : List Byte → Nat
  | [] => 0
  | b :: bs => b.val + 256 * le32 bs

/-- Big-endian value of a byte string: what the target reads from it. -/
def be32 (bs : List Byte) : Nat :=
  bs.foldl (fun acc b => acc * 256 + b.val) 0

/-- The four bytes of `buf` at offset `off`. -/
def field (buf : Buffer) (off : Nat) : List Byte :=
  (buf.drop off).take 4

/-- Load of a `uint32_t` struct member at byte offset `off` of `buf`. -/
def load32 (buf : Buffer) (off : Nat) : Except fault Nat :=
  if off + 4 ≤ buf.length then .ok (le32 (field buf off)) else .error .out_of_bounds

/-- The buffer `buf` with the four bytes at `off` replaced by those of `v`. -/
def put32 (buf : Buffer) (off : Nat) (v : Nat) : Buffer :=
  buf.take off ++ bytes_le v ++ buf.drop (off + 4)

/-- Store of a `uint32_t` struct member at byte offset `off` of `buf`. -/
def store32 (buf : Buffer) (off : Nat) (v : Nat) : Except fault Buffer :=
  if off + 4 ≤ buf.length then .ok (put32 buf off v) else .error .out_of_bounds

/-- The `uint32_t` subtraction `a - b`. -/
def sub32 (a b : Nat) : Nat := (a % U32 + U32 - b % U32) % U32

/-! ## Files -/

/-- The files the tool can read: contents by path, `none` when `fopen` fails. -/
abbrev Files := String → Option Buffer

/-- The function `open_file`: the whole contents of the named file. When `fopen` returns
`NULL` the following `fseek` uses the null stream. -/
def open_file (fs : Files) (filename : String) : Except fault Buffer :=
  match fs filename with
  | none => .error .null_deref
  | some contents => .ok contents

/-- The files after `fopen(name, "w")`: the named file exists and is empty. -/
def fopen_w (fs : Files) (name : String) : Files :=
  fun n => if n = name then some [] else fs n

/-! ## `make_rom` -/

/-- The declarations `make_rom` takes from `n64.h` and `elf.h`, which are not in
`makerom.c`: the constant `PI_VALUES`, the byte offsets of the four `rom_header` members
it assigns, and the byte offset of `entry` in `elf32_header`. -/
structure platform where
  PI_VALUES : Nat
  pi_regs : Nat
  boot_address : Nat
  rom_start : Nat
  rom_length : Nat
  entry : Nat
deriving DecidableEq, Repr

/-- Two four-byte members at offsets `a` and `b` do not overlap. -/
def apart (a b : Nat) : Prop := a + 4 ≤ b ∨ b + 4 ≤ a

instance (a b : Nat) : Decidable (apart a b) := by unfold apart; infer_instance

/-- What a C struct guarantees for `rom_header`: its members are distinct objects, and
the header lies inside the 4096-byte boot block. -/
def platform.wf (P : platform) : Prop :=
  P.pi_regs + 4 ≤ 0x1000 ∧ P.boot_address + 4 ≤ 0x1000 ∧ P.rom_start + 4 ≤ 0x1000 ∧
  P.rom_length + 4 ≤ 0x1000 ∧
  apart P.pi_regs P.boot_address ∧ apart P.pi_regs P.rom_start ∧
  apart P.pi_regs P.rom_length ∧ apart P.boot_address P.rom_start ∧
  apart P.boot_address P.rom_length ∧ apart P.rom_start P.rom_length

instance (P : platform) : Decidable P.wf := by unfold platform.wf; infer_instance

/-- The name `make_rom` builds with `sprintf(section_name, ".%s.text", name)`. -/
def text_section_name (name : String) : String := "." ++ name ++ ".text"

/-- The loop of `make_rom` (lines 211-229): for each segment look its section up in the
linked output and append `BE_TO_LE32(size)` bytes from `BE_TO_LE32(offset)` to the
bytes already written to `rom`. -/
def write_segments (get_section : Reader) (rom_elf_buffer : Buffer) :
    List segment → Buffer → Except fault Buffer
  | [], rom => .ok rom
  | seg :: rest, rom =>
    match get_section rom_elf_buffer (text_section_name seg.name) with
    | none => .error .section_not_found
    | some section_header =>
      let off := BE_TO_LE32 section_header.offset
      let size := BE_TO_LE32 section_header.size
      if off + size ≤ rom_elf_buffer.length then
        write_segments get_section rom_elf_buffer rest
          (rom ++ (rom_elf_buffer.drop off).take size)
      else .error .out_of_bounds

/-- The function `make_rom`; the result is the sequence of bytes written to the file
`rom_name`, which `fopen(rom_name, "w")` has emptied before the other files are read.
The `printf` of each section name goes to the standard output and is not part of the
image. -/
def make_rom (P : platform) (get_section : Reader) (fs : Files)
    (segments : List segment) (rom_name bootcode : String) : Except fault Buffer :=
  match open_file (fopen_w fs rom_name) bootcode with
  | .error e => .error e
  | .ok bootcode_buffer =>
  match open_file (fopen_w fs rom_name) "rom.elf" with
  | .error e => .error e
  | .ok rom_elf_buffer =>
  -- rom_head->pi_regs = PI_VALUES
  match store32 bootcode_buffer P.pi_regs (P.PI_VALUES % U32) with
  | .error e => .error e
  | .ok b1 =>
  -- rom_head->boot_address = rom_elf_header->entry
  match load32 rom_elf_buffer P.entry with
  | .error e => .error e
  | .ok entry =>
  match store32 b1 P.boot_address entry with
  | .error e => .error e
  | .ok b2 =>
  -- segments[0]
  match segments with
  | [] => .error .null_deref
  | seg0 :: _ =>
  match store32 b2 P.rom_start (LE_TO_BE32 seg0.rom_start) with
  | .error e => .error e
  | .ok b3 =>
  match store32 b3 P.rom_length (LE_TO_BE32 (sub32 seg0.rom_end seg0.rom_start)) with
  | .error e => .error e
  | .ok b4 =>
  -- fwrite (bootcode_buffer, 0x1000, 1, rom)
  if 0x1000 ≤ b4.length then
    write_segments get_section rom_elf_buffer segments (b4.take 0x1000)
  else .error .out_of_bounds

/-! ## Specification-side notions -/

/-- The combined size the reader reports for one object: byte-swapped `.text` size plus
byte-swapped `.data` size (`0` when a lookup fails). -/
def section_size (get_section : Reader) (sec : section_t) : Nat :=
  match get_section sec.buffer ".text", get_section sec.buffer ".data" with
  | some text, some data => BE_TO_LE32 text.size + BE_TO_LE32 data.size
  | _, _ => 0

/-- The sum of the combined sizes of the sections of a segment, as a natural number. -/
def size_sum (get_section : Reader) (seg : segment) : Nat :=
  (seg.sections.map (section_size get_section)).sum

/-- Both lookups of `calculate_rom_layout` succeed on every section of the list. -/
def sections_found (get_section : Reader) (secs : List section_t) : Prop :=
  ∀ sec ∈ secs, (get_section sec.buffer ".text").isSome = true ∧
    (get_section sec.buffer ".data").isSome = true

instance (get_section : Reader) (secs : List section_t) :
    Decidable (sections_found get_section secs) := by
  unfold sections_found; infer_instance

/-- Both lookups of `calculate_rom_layout` succeed on every section of every segment. -/
def all_found (get_section : Reader) (segs : List segment) : Prop :=
  ∀ seg ∈ segs, sections_found get_section seg.sections

instance (get_section : Reader) (segs : List segment) :
    Decidable (all_found get_section segs) := by
  unfold all_found; infer_instance

/-- The registry after layout, in closed form: each segment keeps its name and sections,
starts at the counter and ends `size_sum` (mod `2 ^ 32`) later. -/
def laid_out (get_section : Reader) : List segment → Nat → List segment
  | [], _ => []
  | seg :: rest, c =>
    { seg with rom_start := c, rom_end := (c + size_sum get_section seg % U32) % U32 } ::
      laid_out get_section rest ((c + size_sum get_section seg % U32) % U32)

/-- A reader given by a finite table: the file with contents `buf` has a section called
`name` with the given header. -/
def table_reader (table : List (Buffer × String × elf32_shentry)) : Reader :=
  fun buf name =>
    match table.find? (fun e => decide (e.1 = buf) && decide (e.2.1 = name)) with
    | some e => some e.2.2
    | none => none

/-- The value of `rom_location_counter` after the loop of `calculate_rom_layout` has
processed the given segments, starting from `0x1000`. -/
def counter_after (get_section : Reader) (segs : List segment) : Nat :=
  segs.foldl (fun c seg => (c + size_sum get_section seg % U32) % U32) 0x1000

/-- The sum of the 32-bit segment sizes of a registry, as a natural number. -/
def total_size (get_section : Reader) (segs : List segment) : Nat :=
  (segs.map (fun seg => size_sum get_section seg % U32)).sum

/-- The bytes `make_rom` copies for a segment: those of the linked output from the
byte-swapped offset of section `.<name>.text`, for its byte-swapped size. -/
def segment_slice (get_section : Reader) (elf : Buffer) (seg : segment) : List Byte :=
  match get_section elf (text_section_name seg.name) with
  | some sh => (elf.drop (BE_TO_LE32 sh.offset)).take (BE_TO_LE32 sh.size)
  | none => []

/-- The byte-swapped size of section `.<name>.text` in the linked output (`0` when it is
not found). -/
def linked_size (get_section : Reader) (elf : Buffer) (seg : segment) : Nat :=
  match get_section elf (text_section_name seg.name) with
  | some sh => BE_TO_LE32 sh.size
  | none => 0

/-- The lookup of section `.<name>.text` in the linked output succeeds and the section
lies inside the buffer. -/
def slice_ok (get_section : Reader) (elf : Buffer) (seg : segment) : Prop :=
  match get_section elf (text_section_name seg.name) with
  | some sh => BE_TO_LE32 sh.offset + BE_TO_LE32 sh.size ≤ elf.length
  | none => False

instance (get_section : Reader) (elf : Buffer) (seg : segment) :
    Decidable (slice_ok get_section elf seg) := by
  unfold slice_ok; split <;> infer_instance

/-- Every segment of the registry has its section in the linked output, inside the
buffer. -/
def slices_ok (get_section : Reader) (elf : Buffer) (segs : List segment) : Prop :=
  ∀ seg ∈ segs, slice_ok get_section elf seg

instance (get_section : Reader) (elf : Buffer) (segs : List segment) :
    Decidable (slices_ok get_section elf segs) := by
  unfold slices_ok; infer_instance

/-- The boot block as `make_rom` writes it: the boot-code buffer after the four header
assignments, cut to `0x1000` bytes. -/
def patched_boot (P : platform) (boot elf : Buffer) (seg0 : segment) : Buffer :=
  (put32 (put32 (put32 (put32 boot P.pi_regs (P.PI_VALUES % U32))
      P.boot_address (le32 (field elf P.entry)))
      P.rom_start (LE_TO_BE32 seg0.rom_start))
      P.rom_length (LE_TO_BE32 (sub32 seg0.rom_end seg0.rom_start))).take 0x1000

/-- The ranges of the list follow one another from `c` on: each starts where the
previous one ends (the first at `c`) and does not end before it starts. -/
def contiguous_from : Nat → List segment → Prop
  | _, [] => True
  | c, seg :: rest =>
    seg.rom_start = c ∧ seg.rom_start ≤ seg.rom_end ∧ contiguous_from seg.rom_end rest

/-! ## Data of the worked scenario -/

/-- Object `obj1.o`. -/
def obj1 : section_t := ⟨"obj1.o", [1]⟩

/-- Object `obj2.o`. -/
def obj2 : section_t := ⟨"obj2.o", [2]⟩

/-- Object `obj3.o`. -/
def obj3 : section_t := ⟨"obj3.o", [3]⟩

/-- Section headers of the three objects; sizes are stored big-endian, so the host loads
`0xC0000000` for `0xC0`, `0x40000000` for `0x40`, `0x00020000` for `0x200` and
`0x00050000` for `0x500`. Combined sizes: `0x100`, `0x200`, `0x500`. -/
def scenario_reader : Reader :=
  table_reader
    [([1], ".text", ⟨0, 0xC0000000⟩), ([1], ".data", ⟨0, 0x40000000⟩),
     ([2], ".text", ⟨0, 0x00020000⟩), ([2], ".data", ⟨0, 0⟩),
     ([3], ".text", ⟨0, 0x00050000⟩), ([3], ".data", ⟨0, 0⟩)]

/-- The registry for the specification `boot obj1.o obj2.o ; main obj3.o ;` before
layout. -/
def scenario_segments : List segment :=
  [⟨"boot", [obj1, obj2], 0, 0⟩, ⟨"main", [obj3], 0, 0⟩]

/-- An object whose `.text` header reports the size `0xFFFFF000` (stored big-endian, so
the host loads `0x00F0FFFF`) and whose `.data` is empty. -/
def wrap_obj : section_t := ⟨"big.o", [9]⟩

/-- Section headers of `wrap_obj`. -/
def wrap_reader : Reader :=
  table_reader [([9], ".text", ⟨0, 0x00F0FFFF⟩), ([9], ".data", ⟨0, 0⟩)]

/-- A registry with the single segment `boot` holding `wrap_obj`. -/
def wrap_segments : List segment := [⟨"boot", [wrap_obj], 0, 0⟩]

/-- A registry whose second segment has no sections. -/
def gap_segments : List segment :=
  [⟨"boot", [obj1, obj2], 0, 0⟩, ⟨"empty", [], 0, 0⟩, ⟨"main", [obj3], 0, 0⟩]

/-- An example platform: `rom_header` members at offsets `0`, `8`, `16`, `20`, the
`entry` member of the ELF header at offset `24`. -/
def demo_platform : platform :=
  { PI_VALUES := 0x40123780, pi_regs := 0, boot_address := 8, rom_start := 16,
    rom_length := 20, entry := 24 }

/-- A file system holding a boot-code file `boot.bin` and a linked output `rom.elf`. -/
def files_with (boot elf : Buffer) : Files :=
  fun name =>
    if name = "rom.elf" then some elf
    else if name = "boot.bin" then some boot
    else none

/-- A boot-code file of 4096 zero bytes. -/
def demo_boot : Buffer := List.replicate 0x1000 0

/-- Objects `a.o` and `b.o`, each with four bytes of `.text` and no `.data`. -/
def pad_a : section_t := ⟨"a.o", [4]⟩

/-- See `pad_a`. -/
def pad_b : section_t := ⟨"b.o", [5]⟩

/-- Object `c.o`, with two bytes of `.text` and two bytes of `.data`. -/
def pad_c : section_t := ⟨"c.o", [6]⟩

/-- A linked output of 68 bytes in which `.boot.text` starts at offset 52 and is 12 bytes
long (the linker has put four bytes of alignment padding between the two objects), and
`.main.text` starts at offset 64 and is 4 bytes long. Its `entry` member, at offset 24,
holds the bytes `80 00 10 00`. -/
def pad_elf : Buffer :=
  List.replicate 24 1 ++ [0x80, 0x00, 0x10, 0x00] ++ List.replicate 24 1
    ++ List.replicate 12 2 ++ List.replicate 4 4

/-- A linked output of 64 bytes in which `.boot.text` starts at offset 52 and is 8 bytes
long, and `.main.text` starts at offset 60 and is 4 bytes long. Its `entry` member, at
offset 24, holds the bytes `80 00 10 00`. -/
def tight_elf : Buffer :=
  List.replicate 24 1 ++ [0x80, 0x00, 0x10, 0x00] ++ List.replicate 24 1
    ++ List.replicate 8 3 ++ List.replicate 4 4

/-- Section headers of `pad_a`, `pad_b`, `pad_c`, `pad_elf` and `tight_elf`. The fields
are stored big-endian, so the host loads `0x04000000` for `4`, `0x02000000` for `2`,
`0x34000000` for `52`, `0x0C000000` for `12`, `0x40000000` for `64`, `0x08000000` for `8`
and `0x3C000000` for `60`. -/
def pad_reader : Reader :=
  table_reader
    [([4], ".text", ⟨0, 0x04000000⟩), ([4], ".data", ⟨0, 0⟩),
     ([5], ".text", ⟨0, 0x04000000⟩), ([5], ".data", ⟨0, 0⟩),
     ([6], ".text", ⟨0, 0x02000000⟩), ([6], ".data", ⟨0, 0x02000000⟩),
     (pad_elf, ".boot.text", ⟨0x34000000, 0x0C000000⟩),
     (pad_elf, ".main.text", ⟨0x40000000, 0x04000000⟩),
     (tight_elf, ".boot.text", ⟨0x34000000, 0x08000000⟩),
     (tight_elf, ".main.text", ⟨0x3C000000, 0x04000000⟩)]

/-- The registry for the specification `boot a.o b.o ; main c.o ;` before layout. -/
def pad_segments : List segment :=
  [⟨"boot", [pad_a, pad_b], 0, 0⟩, ⟨"main", [pad_c], 0, 0⟩]

/-- The registry of `pad_segments` after layout: `boot` is `[0x1000, 0x1008)` and `main`
is `[0x1008, 0x100C)`. -/
def pad_laid_out : List segment :=
  [⟨"boot", [pad_a, pad_b], 0x1000, 0x1008⟩, ⟨"main", [pad_c], 0x1008, 0x100C⟩]

/-! ## The frame of the boot block -/

/-- Byte position `i` lies outside the four `rom_header` members `make_rom` assigns. -/
def outside_header (P : platform) (i : Nat) : Prop :=
  (i < P.pi_regs ∨ P.pi_regs + 4 ≤ i) ∧ (i < P.boot_address ∨ P.boot_address + 4 ≤ i) ∧
  (i < P.rom_start ∨ P.rom_start + 4 ≤ i) ∧ (i < P.rom_length ∨ P.rom_length + 4 ≤ i)

instance (P : platform) (i : Nat) : Decidable (outside_header P i) := by
  unfold outside_header; infer_instance

/-! ## `generate_linker_script` -/

/-- The stream `lscript`: the texts written to it so far, one entry for each `fprintf`
call, in call order. The file holds their concatenation. -/
abbrev Script := List String

/-- The call `fprintf(lscript, ...)` with the formatted text `text`. -/
def fprintf (lscript : Script) (text : String) : Script := lscript ++ [text]

/-- The conversion `%x` of a `uint32_t`: lower-case hexadecimal without leading zeros. -/
def hex (v : Nat) : String := String.mk (Nat.toDigits 16 (v % U32))

/-- The inner loop of the `INPUT` list (lines 115-117). -/
def emit_input_sections : List section_t → Script → Script
  | [], lscript => lscript
  | sec :: rest, lscript =>
    emit_input_sections rest (fprintf lscript ("\t" ++ sec.filename ++ "\n"))

/-- The outer loop of the `INPUT` list (lines 114-118). -/
def emit_inputs : List segment → Script → Script
  | [], lscript => lscript
  | seg :: rest, lscript => emit_inputs rest (emit_input_sections seg.sections lscript)

/-- The loop over the sections in a segment's text and data region (lines 144-149). -/
def emit_text_sections : List section_t → Script → Script
  | [], lscript => lscript
  | sec :: rest, lscript =>
    emit_text_sections rest
      (fprintf (fprintf lscript ("\t\t" ++ sec.filename ++ " (.text)\n"))
        ("\t\t" ++ sec.filename ++ " (.data)\n"))

/-- The loop over the sections in a segment's BSS region (lines 161-166). -/
def emit_bss_sections : List section_t → Script → Script
  | [], lscript => lscript
  | sec :: rest, lscript =>
    emit_bss_sections rest
      (fprintf (fprintf lscript ("\t\t" ++ sec.filename ++ " (.bss)\n"))
        ("\t\t" ++ sec.filename ++ " (COMMON)\n"))

/-- The loop over the segments in `SECTIONS` (lines 130-172). -/
def emit_segments : List segment → Script → Script
  | [], lscript => lscript
  | seg :: rest, lscript =>
    let l1 := fprintf lscript
      ("\t_" ++ seg.name ++ "SegmentRomStart = 0x" ++ hex seg.rom_start ++ ";\n")
    let l2 := fprintf l1
      ("\t_" ++ seg.name ++ "SegmentRomEnd = 0x" ++ hex seg.rom_end ++ ";\n\n")
    let l3 := fprintf l2 ("\t_" ++ seg.name ++ "SegmentTextStart = ABSOLUTE(.);\n\n")
    let l4 := fprintf l3 ("\t." ++ seg.name ++ ".text : \x7b\n")
    let l5 := emit_text_sections seg.sections l4
    let l6 := fprintf l5 "\t\x7d\n\n"
    let l7 := fprintf l6 ("\t_" ++ seg.name ++ "SegmentTextEnd = ABSOLUTE(.);\n\n")
    let l8 := fprintf l7 ("\t_" ++ seg.name ++ "SegmentBssStart = ABSOLUTE(.);\n\n")
    let l9 := fprintf l8 ("\t." ++ seg.name ++ ".bss : \x7b\n")
    let l10 := emit_bss_sections seg.sections l9
    let l11 := fprintf l10 "\t\x7d\n\n"
    let l12 := fprintf l11 ("\t_" ++ seg.name ++ "SegmentBssEnd = ABSOLUTE(.);\n\n")
    emit_segments rest l12

/-- The function `generate_linker_script`, writing to the stream `lscript`. -/
def generate_linker_script (segments : List segment) (lscript : Script) : Script :=
  let l1 := fprintf lscript
    "/* This linker script was automatically generated by the pseultra makerom tool */\n"
  let l2 := fprintf l1 "ENTRY(_boot)\n"
  let l3 := fprintf l2 "INPUT(\n"
  let l4 := emit_inputs segments l3
  let l5 := fprintf l4 ")\n"
  let l6 := fprintf l5 "OUTPUT(rom.elf)\n"
  let l7 := fprintf l6 "SECTIONS \x7b\n"
  let l8 := fprintf l7 "\t. = 0x80001000;\n"
  let l9 := emit_segments segments l8
  let l10 := fprintf l9 "\t/DISCARD/ : \x7b\n"
  let l11 := fprintf l10 "\t\t* (.MIPS.abiflags)\n"
  let l12 := fprintf l11 "\t\t* (.pdr)\n"
  let l13 := fprintf l12 "\t\t* (.comment)\n"
  let l14 := fprintf l13 "\t\t* (.reginfo)\n"
  let l15 := fprintf l14 "\t\t* (.gnu.attributes)\n"
  let l16 := fprintf l15 "\t\x7d\n"
  fprintf l16 "\x7d\n"

/-! ## Specification-side notions for the linker script -/

/-- The object files of a registry, segment by segment and section by section. -/
def declared_paths (segs : List segment) : List String :=
  ((segs.map segment.sections).flatten).map section_t.filename

/-- The entries of a script strictly between the first entry `opening` and the next
entry `closing`. -/
def entries_between (opening closing : String) (script : Script) : Script :=
  ((script.dropWhile (fun e => e != opening)).drop 1).takeWhile (fun e => e != closing)

/-- The lines of the script before the `SECTIONS` body: up to the line that sets the
location counter, which is the last of them. -/
def script_head (segs : List segment) : Script :=
  ["/* This linker script was automatically generated by the pseultra makerom tool */\n",
    "ENTRY(_boot)\n", "INPUT(\n"]
  ++ (declared_paths segs).map (fun path => "\t" ++ path ++ "\n")
  ++ [")\n", "OUTPUT(rom.elf)\n", "SECTIONS \x7b\n", "\t. = 0x80001000;\n"]

/-- The body of a segment's text region: for each section `<file> (.text)` and then
`<file> (.data)`. -/
def text_body (secs : List section_t) : Script :=
  (secs.map (fun sec =>
    ["\t\t" ++ sec.filename ++ " (.text)\n", "\t\t" ++ sec.filename ++ " (.data)\n"])).flatten

/-- The body of a segment's BSS region: for each section `<file> (.bss)` and then
`<file> (COMMON)`. -/
def bss_body (secs : List section_t) : Script :=
  (secs.map (fun sec =>
    ["\t\t" ++ sec.filename ++ " (.bss)\n", "\t\t" ++ sec.filename ++ " (COMMON)\n"])).flatten

/-- The lines of one segment: its boundary symbols around its text region, then around
its BSS region. -/
def segment_region (seg : segment) : Script :=
  ["\t_" ++ seg.name ++ "SegmentRomStart = 0x" ++ hex seg.rom_start ++ ";\n",
    "\t_" ++ seg.name ++ "SegmentRomEnd = 0x" ++ hex seg.rom_end ++ ";\n\n",
    "\t_" ++ seg.name ++ "SegmentTextStart = ABSOLUTE(.);\n\n",
    "\t." ++ seg.name ++ ".text : \x7b\n"]
  ++ text_body seg.sections
  ++ ["\t\x7d\n\n",
    "\t_" ++ seg.name ++ "SegmentTextEnd = ABSOLUTE(.);\n\n",
    "\t_" ++ seg.name ++ "SegmentBssStart = ABSOLUTE(.);\n\n",
    "\t." ++ seg.name ++ ".bss : \x7b\n"]
  ++ bss_body seg.sections
  ++ ["\t\x7d\n\n", "\t_" ++ seg.name ++ "SegmentBssEnd = ABSOLUTE(.);\n\n"]

/-- The closing lines of the script: the `/DISCARD/` region and the end of `SECTIONS`. -/
def script_tail : Script :=
  ["\t/DISCARD/ : \x7b\n", "\t\t* (.MIPS.abiflags)\n", "\t\t* (.pdr)\n", "\t\t* (.comment)\n",
    "\t\t* (.reginfo)\n", "\t\t* (.gnu.attributes)\n", "\t\x7d\n", "\x7d\n"]

/-- The path of an `INPUT` entry: the entry without its leading tab and its final
newline. -/
def entry_path (e : String) : String := String.mk ((e.data.drop 1).dropLast)

/-- The C predicate `isspace` in the C locale: space, `\t`, `\n`, `\v`, `\f`, `\r`. -/
def isspace (c : Char) : Bool := c = ' ' || (9 ≤ c.toNat && c.toNat ≤ 13)

/-- A text without the white space at its two ends. -/
def trim (cs : List Char) : List Char :=
  ((cs.dropWhile isspace).reverse.dropWhile isspace).reverse

/-- The script defines `symbol` with `value`: one of its entries is, up to the white
space around it, the assignment `symbol = value;`. -/
def defines (script : Script) (symbol value : String) : Prop :=
  ∃ e ∈ script, trim e.data = (symbol ++ " = " ++ value ++ ";").data

instance (script : Script) (symbol value : String) :
    Decidable (defines script symbol value) := by
  unfold defines; infer_instance

/-- The name of the uninitialised-data region `generate_linker_script` emits for a
segment (`".%s.bss"`). -/
def bss_section_name (name : String) : String := "." ++ name ++ ".bss"

/-- A reader that answers only for the listed names. -/
def restrict_reader (get_section : Reader) (names : List String) : Reader :=
  fun buf name => if name ∈ names then get_section buf name else none

/-! ## The segment and section model -/

/-- The function `create_segment`: a segment with the given name and no sections. The
source leaves `rom_start` and `rom_end` unassigned until `calculate_rom_layout` runs;
the model holds `0` there. The name is kept as a value: the size of the buffer it is
copied to is not part of this model. -/
def create_segment (name : String) : segment :=
  { name := name, sections := [], rom_start := 0, rom_end := 0 }

/-- The function `add_section`: `section_count` grows by one and the section is stored
at index `section_count - 1`. -/
def add_section (sec : section_t) (seg : segment) : segment :=
  { seg with sections := seg.sections ++ [sec] }

/-- The function `add_segment` on the registry: `segment_count` grows by one and the
segment is stored at index `segment_count - 1`. -/
def add_segment (seg : segment) (segments : List segment) : List segment :=
  segments ++ [seg]

/-! ## Sizes of the formatted strings -/

/-- The C function `strlen`: the number of bytes of a string; every character of the
model stands for one byte. -/
def strlen (s : String) : Nat := s.length

/-- The text `sprintf(link_command, "%s -T link.ld -G0", argv[2])` writes, without the
terminating byte. -/
def link_command (ld_path : String) : String := ld_path ++ " -T link.ld -G0"

/-- The size `main` allocates for the link command:
`sizeof(char) * strlen(argv[2]) + 15`. -/
def link_command_alloc (ld_path : String) : Nat := 1 * strlen ld_path + 15

/-- The size `make_rom` allocates for a section name: `strlen(segments[i].name) + 7`. -/
def section_name_alloc (name : String) : Nat := strlen name + 7

/-! ## `create_section` and `process_specfile` -/

/-- The function `create_section`. The name is copied with `strcpy` to a buffer of
`strlen(filename)` bytes (lines 237-240), so its terminating byte is written one byte
past the buffer, where the allocator and later allocations write as well. `past_end`
stands for the bytes that follow the buffer, up to the first zero byte, when the name is
read back; it is empty when the terminator is still there. The file is loaded with
`open_file`, whose result is not checked. -/
def create_section (past_end : String) (fs : Files) (filename : String) :
    Except fault section_t :=
  match open_file fs filename with
  | .error e => .error e
  | .ok buffer => .ok { filename := filename ++ past_end, buffer := buffer }

/-- A stream opened for reading: the characters not yet read. -/
abbrev Stream := List Char

/-- A white-space directive of `fscanf`: input is read up to the first character that
is not white space. -/
def skip_space (inp : Stream) : Stream := inp.dropWhile isspace

/-- The call `fscanf(file, " %15s ", segment_name)`: the word read and the rest of the
stream when it returns 1, `none` when the input ends before a word starts. -/
def scan_name (inp : Stream) : Option (String × Stream) :=
  match skip_space inp with
  | [] => none
  | c :: rest =>
    let word := ((c :: rest).takeWhile (fun x => !isspace x)).take 15
    some (String.mk word, skip_space ((c :: rest).drop word.length))

/-- The call `fscanf(file, " %255[^\n ;] ", objfile_name)`: the word read when it
returns 1, `none` when the next character is a newline, a space or a semicolon or the
input has ended; and the rest of the stream. -/
def scan_objfile (inp : Stream) : Option String × Stream :=
  let inp1 := skip_space inp
  let word := (inp1.takeWhile (fun x => x != '\n' && x != ' ' && x != ';')).take 255
  if word = [] then (none, inp1)
  else (some (String.mk word), skip_space (inp1.drop word.length))

/-- The test `fscanf(file, " ; ") == EOF`: true when the input ends before the
semicolon; and the rest of the stream. -/
def scan_semicolon (inp : Stream) : Bool × Stream :=
  match skip_space inp with
  | [] => (true, [])
  | c :: rest => if c = ';' then (false, skip_space rest) else (false, c :: rest)

/-- What follows the buffer of each section name when it is read back (see
`create_section`): one text for the section at a given index of the segment at a given
index, created for a given path. -/
abbrev Heap := Nat → Nat → String → String

/-- The inner loop of `process_specfile` (lines 69-75), for at most `fuel` rounds. Every
round that goes on reads at least one character, so `inp.length + 1` rounds are
enough. `past_end` gives, for the index of a section in this segment and its path, what
follows the buffer of its name. -/
def read_sections (past_end : Nat → String → String) (fs : Files) :
    Nat → Stream → segment → Except fault (segment × Stream)
  | 0, inp, seg => .ok (seg, inp)
  | fuel + 1, inp, seg =>
    match scan_objfile inp with
    | (none, rest) => .ok (seg, rest)
    | (some objfile_name, rest) =>
      match create_section (past_end seg.sections.length objfile_name) fs objfile_name with
      | .error e => .error e
      | .ok sec => read_sections past_end fs fuel rest (add_section sec seg)

/-- The outer loop of `process_specfile` (lines 65-80), for at most `fuel` rounds. Every
round that goes on reads at least one character, so `inp.length + 1` rounds are
enough. -/
def read_segments (heap : Heap) (fs : Files) :
    Nat → Stream → List segment → Except fault (List segment)
  | 0, _, segments => .ok segments
  | fuel + 1, inp, segments =>
    match scan_name inp with
    | none => .ok segments
    | some (segment_name, inp1) =>
      match read_sections (heap segments.length) fs (inp1.length + 1) inp1
          (create_segment segment_name) with
      | .error e => .error e
      | .ok (seg, inp2) =>
        match scan_semicolon inp2 with
        | (true, _) => .ok (add_segment seg segments)
        | (false, inp3) => read_segments heap fs fuel inp3 (add_segment seg segments)

/-- The function `process_specfile`; `file` is the result of `fopen`, `none` for `NULL`.
The registry starts empty. -/
def process_specfile (heap : Heap) (fs : Files) (file : Option Stream) :
    Except fault (List segment) :=
  match file with
  | none => .error .null_deref
  | some inp => read_segments heap fs (inp.length + 1) inp []

/-- What a run can change or leave behind: the files, the texts printed to the standard
output, the paths passed to `fopen` and the commands passed to `system`. -/
structure world where
  files : Files
  stdout : List String
  opened : List String
  commands : List String

/-- The usage message of `main`. -/
def usage_message : String := "Usage: makerom <spec file> <ld path> <boot file> <output>\n"

/-- The bytes of a text; every character of the model stands for one byte. -/
def bytes_of (s : String) : Buffer := s.data.map (fun c => Fin.ofNat c.toNat)

/-- The characters of a file. -/
def chars_of (buf : Buffer) : Stream := buf.map (fun b => Char.ofNat b.val)

/-- A heap in which every terminator written past a name's buffer is still there when
the name is read. -/
def quiet_heap : Heap := fun _ _ _ => ""

/-- The paths `process_specfile` passes to `create_section`, in order: the names the
sections store when nothing follows their buffers. -/
def scanned_paths (fs : Files) (file : Option Stream) : List String :=
  match process_specfile quiet_heap fs file with
  | .ok segments => declared_paths segments
  | .error _ => []

/-- The function `main`; `argv` holds the program name and the arguments, so `argc` is
its length. The external linker is the parameter `system`: what running a command does
to the files; `heap` is what follows the buffers of the section names. The result is the
exit status and the world after the run. -/
def main (P : platform) (get_section : Reader) (system : String → Files → Files)
    (heap : Heap) (argv : List String) (w : world) : Except fault (Nat × world) :=
  match argv with
  | [_, spec_file, ld_path, boot_file, output] =>
    -- file = fopen(argv[1], "r"); process_specfile(file); fclose(file)
    match process_specfile heap w.files ((w.files spec_file).map chars_of) with
    | .error e => .error e
    | .ok segments0 =>
    -- calculate_rom_layout()
    match calculate_rom_layout get_section segments0 with
    | none => .error .section_not_found
    | some segments =>
    -- lscript = fopen("link.ld", "w"); generate_linker_script(lscript); fclose(lscript)
    let script := generate_linker_script segments []
    let files1 : Files :=
      fun n => if n = "link.ld" then some (bytes_of (String.join script)) else w.files n
    -- system(link_command)
    let files2 := system (link_command ld_path) files1
    -- make_rom(argv[4], argv[3])
    match make_rom P get_section files2 segments output boot_file with
    | .error e => .error e
    | .ok image =>
      .ok (0,
        { files := fun n => if n = output then some image else files2 n
          stdout := w.stdout ++ segments.map (fun seg => text_section_name seg.name)
          opened := w.opened ++ [spec_file]
            ++ scanned_paths w.files ((w.files spec_file).map chars_of)
            ++ ["link.ld", output, boot_file, "rom.elf"]
          commands := w.commands ++ [link_command ld_path] })
  | _ =>
    -- argc != 5: printf("Usage: ..."); return 0
    .ok (0, { w with stdout := w.stdout ++ [usage_message] })

/-! ## Notions and data for `process_specfile` and `main` -/

/-- A world with no files in which nothing has happened yet. -/
def empty_world : world :=
  { files := fun _ => none, stdout := [], opened := [], commands := [] }

theorem bswap32_lt (x : Nat) : bswap32 x < U32 := by
  simp only [bswap32, U32]; omega

theorem bswap32_byte0 (x : Nat) : bswap32 x % 256 = x / 2 ^ 24 % 256 := by
  unfold bswap32
  have ha : x / 2 ^ 24 % 256 < 256 := Nat.mod_lt _ (by decide)
  generalize x / 2 ^ 24 % 256 = a, x / 2 ^ 16 % 256 = b, x / 2 ^ 8 % 256 = c,
    x % 256 = d at ha ⊢
  omega

theorem bswap32_byte1 (x : Nat) : bswap32 x / 2 ^ 8 % 256 = x / 2 ^ 16 % 256 := by
  unfold bswap32
  have ha : x / 2 ^ 24 % 256 < 256 := Nat.mod_lt _ (by decide)
  have hb : x / 2 ^ 16 % 256 < 256 := Nat.mod_lt _ (by decide)
  generalize x / 2 ^ 24 % 256 = a, x / 2 ^ 16 % 256 = b, x / 2 ^ 8 % 256 = c,
    x % 256 = d at ha hb ⊢
  omega

theorem bswap32_byte2 (x : Nat) : bswap32 x / 2 ^ 16 % 256 = x / 2 ^ 8 % 256 := by
  unfold bswap32
  have ha : x / 2 ^ 24 % 256 < 256 := Nat.mod_lt _ (by decide)
  have hb : x / 2 ^ 16 % 256 < 256 := Nat.mod_lt _ (by decide)
  have hc : x / 2 ^ 8 % 256 < 256 := Nat.mod_lt _ (by decide)
  generalize x / 2 ^ 24 % 256 = a, x / 2 ^ 16 % 256 = b, x / 2 ^ 8 % 256 = c,
    x % 256 = d at ha hb hc ⊢
  omega

theorem bswap32_byte3 (x : Nat) : bswap32 x / 2 ^ 24 % 256 = x % 256 := by
  unfold bswap32
  have ha : x / 2 ^ 24 % 256 < 256 := Nat.mod_lt _ (by decide)
  have hb : x / 2 ^ 16 % 256 < 256 := Nat.mod_lt _ (by decide)
  have hc : x / 2 ^ 8 % 256 < 256 := Nat.mod_lt _ (by decide)
  have hd : x % 256 < 256 := Nat.mod_lt _ (by decide)
  generalize x / 2 ^ 24 % 256 = a, x / 2 ^ 16 % 256 = b, x / 2 ^ 8 % 256 = c,
    x % 256 = d at ha hb hc hd ⊢
  omega

theorem bswap32_bswap32 (x : Nat) : bswap32 (bswap32 x) = x % U32 := by
  have h0 := bswap32_byte0 x
  have h1 := bswap32_byte1 x
  have h2 := bswap32_byte2 x
  have h3 := bswap32_byte3 x
  rw [bswap32, h0, h1, h2, h3]
  simp only [U32]
  omega

theorem bytes_le_length (v : Nat) : (bytes_le v).length = 4 := rfl

theorem be32_bytes_le_bswap32 (x : Nat) : be32 (bytes_le (bswap32 x)) = x % U32 := by
  have h0 := bswap32_byte0 x
  have h1 := bswap32_byte1 x
  have h2 := bswap32_byte2 x
  have h3 := bswap32_byte3 x
  simp only [be32, bytes_le, List.foldl_cons, List.foldl_nil, Fin.ofNat, h0, h1, h2, h3, U32]
  omega

theorem le32_bytes_le (v : Nat) : le32 (bytes_le v) = v % U32 := by
  simp only [le32, bytes_le, Fin.ofNat, U32]
  omega

theorem bytes_le_le32 (bs : List Byte) (h : bs.length = 4) : bytes_le (le32 bs) = bs := by
  match bs, h with
  | [a, b, c, d], _ =>
    have ha := a.isLt
    have hb := b.isLt
    have hc := c.isLt
    have hd := d.isLt
    simp only [le32, bytes_le, Fin.ofNat, List.cons.injEq, and_true]
    refine ⟨?_, ?_, ?_, ?_⟩ <;> apply Fin.ext <;> simp only <;> omega

theorem field_length (buf : Buffer) (off : Nat) (h : off + 4 ≤ buf.length) :
    (field buf off).length = 4 := by
  simp only [field, List.length_take, List.length_drop]; omega

theorem field_congr (a b : Buffer) (off : Nat)
    (h : ∀ k, k < 4 → a[off + k]? = b[off + k]?) : field a off = field b off := by
  apply List.ext_getElem?
  intro n
  simp only [field, List.getElem?_take, List.getElem?_drop]
  split
  · exact h n (by assumption)
  · rfl

theorem put32_length (buf : Buffer) (off v : Nat) (h : off + 4 ≤ buf.length) :
    (put32 buf off v).length = buf.length := by
  simp only [put32, List.length_append, List.length_take, List.length_drop, bytes_le_length]
  omega

theorem getElem?_put32_outside (buf : Buffer) (off v i : Nat) (h : off + 4 ≤ buf.length)
    (hi : i < off ∨ off + 4 ≤ i) : (put32 buf off v)[i]? = buf[i]? := by
  unfold put32
  rcases hi with hi | hi
  · rw [List.append_assoc, List.getElem?_append_left (by simp; omega),
      List.getElem?_take_of_lt hi]
  · rw [List.getElem?_append_right (by simp [bytes_le_length]; omega), List.getElem?_drop]
    congr 1
    simp only [List.length_append, List.length_take, bytes_le_length]
    omega

theorem getElem?_put32_inside (buf : Buffer) (off v k : Nat) (h : off + 4 ≤ buf.length)
    (hk : k < 4) : (put32 buf off v)[off + k]? = (bytes_le v)[k]? := by
  unfold put32
  rw [List.getElem?_append_left (by simp [bytes_le_length]; omega),
    List.getElem?_append_right (by simp), ]
  congr 1
  simp only [List.length_take]
  omega

theorem field_put32_same (buf : Buffer) (off v : Nat) (h : off + 4 ≤ buf.length) :
    field (put32 buf off v) off = bytes_le v := by
  apply List.ext_getElem?
  intro n
  simp only [field, List.getElem?_take, List.getElem?_drop]
  split
  · exact getElem?_put32_inside buf off v n h (by assumption)
  · rw [eq_comm, List.getElem?_eq_none_iff, bytes_le_length]; omega

theorem field_put32_other (buf : Buffer) (off v off' : Nat) (h : off + 4 ≤ buf.length)
    (ha : apart off off') : field (put32 buf off v) off' = field buf off' := by
  apply field_congr
  intro k hk
  apply getElem?_put32_outside buf off v _ h
  unfold apart at ha
  omega

theorem field_take (buf : Buffer) (off n : Nat) (h : off + 4 ≤ n) :
    field (buf.take n) off = field buf off := by
  apply field_congr
  intro k hk
  exact List.getElem?_take_of_lt (by omega)

theorem field_append (a b : Buffer) (off : Nat) (h : off + 4 ≤ a.length) :
    field (a ++ b) off = field a off := by
  apply field_congr
  intro k hk
  exact List.getElem?_append_left (by omega)

/-! ## Lemmas about `make_rom` -/

theorem write_segments_ok (gs : Reader) (elf : Buffer) (segs : List segment) (rom : Buffer)
    (h : slices_ok gs elf segs) :
    write_segments gs elf segs rom
      = .ok (rom ++ (segs.map (segment_slice gs elf)).flatten) := by
  induction segs generalizing rom with
  | nil => simp [write_segments]
  | cons seg rest ih =>
    have hseg : slice_ok gs elf seg := h seg (List.mem_cons_self _ _)
    have hrest : slices_ok gs elf rest := fun x hx => h x (List.mem_cons_of_mem _ hx)
    unfold slice_ok at hseg
    cases hg : gs elf (text_section_name seg.name) with
    | none => simp [hg] at hseg
    | some sh =>
      simp only [hg] at hseg
      simp only [write_segments, hg, hseg, if_true, ih _ hrest, List.map_cons,
        List.flatten_cons, segment_slice, List.append_assoc]

theorem segment_slice_length (gs : Reader) (elf : Buffer) (seg : segment)
    (h : slice_ok gs elf seg) :
    (segment_slice gs elf seg).length = linked_size gs elf seg := by
  unfold slice_ok at h
  cases hg : gs elf (text_section_name seg.name) with
  | none => simp [hg] at h
  | some sh =>
    simp only [hg] at h
    simp only [segment_slice, linked_size, hg, List.length_take, List.length_drop]
    omega

theorem patched_boot_length (P : platform) (boot elf : Buffer) (seg0 : segment)
    (hwf : P.wf) (hlen : 0x1000 ≤ boot.length) :
    (patched_boot P boot elf seg0).length = 0x1000 := by
  obtain ⟨h1, h2, h3, h4, -⟩ := hwf
  have l1 := put32_length boot P.pi_regs (P.PI_VALUES % U32) (by omega)
  have l2 := put32_length _ P.boot_address (le32 (field elf P.entry)) (by rw [l1]; omega)
  have l3 := put32_length _ P.rom_start (LE_TO_BE32 seg0.rom_start)
    (by rw [l2, l1]; omega)
  have l4 := put32_length _ P.rom_length (LE_TO_BE32 (sub32 seg0.rom_end seg0.rom_start))
    (by rw [l3, l2, l1]; omega)
  simp only [patched_boot, List.length_take, l4, l3, l2, l1]
  omega

theorem make_rom_ok (P : platform) (gs : Reader) (fs : Files) (seg0 : segment)
    (rest : List segment) (rom_name bootcode : String) (boot elf : Buffer)
    (hwf : P.wf) (hout : rom_name ≠ bootcode ∧ rom_name ≠ "rom.elf")
    (hboot : fs bootcode = some boot) (helf : fs "rom.elf" = some elf)
    (hlen : 0x1000 ≤ boot.length) (hentry : P.entry + 4 ≤ elf.length)
    (hslices : slices_ok gs elf (seg0 :: rest)) :
    make_rom P gs fs (seg0 :: rest) rom_name bootcode
      = .ok (patched_boot P boot elf seg0
          ++ ((seg0 :: rest).map (segment_slice gs elf)).flatten) := by
  obtain ⟨h1, h2, h3, h4, -⟩ := hwf
  have l1 := put32_length boot P.pi_regs (P.PI_VALUES % U32) (by omega)
  have l2 := put32_length _ P.boot_address (le32 (field elf P.entry)) (by rw [l1]; omega)
  have l3 := put32_length _ P.rom_start (LE_TO_BE32 seg0.rom_start)
    (by rw [l2, l1]; omega)
  have l4 := put32_length _ P.rom_length (LE_TO_BE32 (sub32 seg0.rom_end seg0.rom_start))
    (by rw [l3, l2, l1]; omega)
  have c1 : P.pi_regs + 4 ≤ boot.length := by omega
  have c2 : P.boot_address + 4 ≤ boot.length := by omega
  have c3 : P.rom_start + 4 ≤ boot.length := by omega
  have c4 : P.rom_length + 4 ≤ boot.length := by omega
  have c5 : 4096 ≤ boot.length := hlen
  have f1 : fopen_w fs rom_name bootcode = some boot := by
    simp only [fopen_w, if_neg (Ne.symm hout.1), hboot]
  have f2 : fopen_w fs rom_name "rom.elf" = some elf := by
    simp only [fopen_w, if_neg (Ne.symm hout.2), helf]
  simp only [make_rom, open_file, f1, f2, store32, load32, c1, c2, c3, c4, c5, hentry,
    if_true, l1, l2, l3, l4, write_segments_ok gs elf _ _ hslices, patched_boot]

theorem make_rom_nil (P : platform) (gs : Reader) (fs : Files) (rom_name bootcode : String)
    (img : Buffer) : make_rom P gs fs [] rom_name bootcode ≠ .ok img := by
  unfold make_rom
  repeat' split
  all_goals simp_all

theorem demo_boot_length : demo_boot.length = 0x1000 := List.length_replicate _ _

theorem make_rom_nil_fault (P : platform) (gs : Reader) (fs : Files)
    (rom_name bootcode : String) (boot elf : Buffer)
    (hwf : P.wf) (hout : rom_name ≠ bootcode ∧ rom_name ≠ "rom.elf")
    (hboot : fs bootcode = some boot) (helf : fs "rom.elf" = some elf)
    (hlen : 0x1000 ≤ boot.length) (hentry : P.entry + 4 ≤ elf.length) :
    make_rom P gs fs [] rom_name bootcode = .error .null_deref := by
  obtain ⟨h1, h2, -⟩ := hwf
  have l1 := put32_length boot P.pi_regs (P.PI_VALUES % U32) (by omega)
  have c1 : P.pi_regs + 4 ≤ boot.length := by omega
  have c2 : P.boot_address + 4 ≤ boot.length := by omega
  have f1 : fopen_w fs rom_name bootcode = some boot := by
    simp only [fopen_w, if_neg (Ne.symm hout.1), hboot]
  have f2 : fopen_w fs rom_name "rom.elf" = some elf := by
    simp only [fopen_w, if_neg (Ne.symm hout.2), helf]
  simp only [make_rom, open_file, f1, f2, store32, load32, c1, c2, hentry,
    if_true, l1]

theorem slices_length (gs : Reader) (elf : Buffer) (segs : List segment)
    (h : slices_ok gs elf segs) :
    ((segs.map (segment_slice gs elf)).flatten).length
      = (segs.map (linked_size gs elf)).sum := by
  induction segs with
  | nil => rfl
  | cons seg rest ih =>
    have hseg : slice_ok gs elf seg := h seg (List.mem_cons_self _ _)
    have hrest : slices_ok gs elf rest := fun x hx => h x (List.mem_cons_of_mem _ hx)
    simp only [List.map_cons, List.flatten_cons, List.length_append, List.sum_cons,
      segment_slice_length gs elf seg hseg, ih hrest]

theorem make_rom_image (P : platform) (gs : Reader) (fs : Files) (segs : List segment)
    (rom_name bootcode : String) (boot elf : Buffer)
    (hne : segs ≠ []) (hwf : P.wf) (hout : rom_name ≠ bootcode ∧ rom_name ≠ "rom.elf")
    (hboot : fs bootcode = some boot)
    (helf : fs "rom.elf" = some elf) (hlen : 0x1000 ≤ boot.length)
    (hentry : P.entry + 4 ≤ elf.length) (hslices : slices_ok gs elf segs) :
    ∃ seg0 rest, segs = seg0 :: rest ∧
      make_rom P gs fs segs rom_name bootcode
        = .ok (patched_boot P boot elf seg0 ++ (segs.map (segment_slice gs elf)).flatten) := by
  cases segs with
  | nil => exact absurd rfl hne
  | cons seg0 rest =>
    exact ⟨seg0, rest, rfl,
      make_rom_ok P gs fs seg0 rest rom_name bootcode boot elf hwf hout hboot helf hlen hentry
        hslices⟩

theorem make_rom_length (P : platform) (gs : Reader) (fs : Files) (segs : List segment)
    (rom_name bootcode : String) (boot elf : Buffer)
    (hne : segs ≠ []) (hwf : P.wf) (hout : rom_name ≠ bootcode ∧ rom_name ≠ "rom.elf")
    (hboot : fs bootcode = some boot)
    (helf : fs "rom.elf" = some elf) (hlen : 0x1000 ≤ boot.length)
    (hentry : P.entry + 4 ≤ elf.length) (hslices : slices_ok gs elf segs) :
    ∃ img, make_rom P gs fs segs rom_name bootcode = .ok img ∧
      img.length = 0x1000 + (segs.map (linked_size gs elf)).sum := by
  obtain ⟨seg0, rest, -, hok⟩ :=
    make_rom_image P gs fs segs rom_name bootcode boot elf hne hwf hout hboot helf hlen hentry
      hslices
  refine ⟨_, hok, ?_⟩
  rw [List.length_append, patched_boot_length P boot elf seg0 hwf hlen,
    slices_length gs elf segs hslices]

theorem apart_symm {a b : Nat} (h : apart a b) : apart b a := Or.symm h

theorem sub32_lt (a b : Nat) : sub32 a b < U32 := Nat.mod_lt _ (by decide)

theorem be32_eq_swap_le32 (bs : List Byte) (h : bs.length = 4) :
    be32 bs = BE_TO_LE32 (le32 bs) := by
  match bs, h with
  | [a, b, c, d], _ =>
    have ha := a.isLt
    have hb := b.isLt
    have hc := c.isLt
    have hd := d.isLt
    simp only [be32, le32, BE_TO_LE32, bswap32, List.foldl_cons, List.foldl_nil]
    have e0 : (a.val + 256 * (b.val + 256 * (c.val + 256 * (d.val + 256 * 0)))) % 256
        = a.val := by omega
    have e1 : (a.val + 256 * (b.val + 256 * (c.val + 256 * (d.val + 256 * 0)))) / 2 ^ 8 % 256
        = b.val := by omega
    have e2 : (a.val + 256 * (b.val + 256 * (c.val + 256 * (d.val + 256 * 0)))) / 2 ^ 16 % 256
        = c.val := by omega
    have e3 : (a.val + 256 * (b.val + 256 * (c.val + 256 * (d.val + 256 * 0)))) / 2 ^ 24 % 256
        = d.val := by omega
    rw [e0, e1, e2, e3]
    omega

theorem patched_boot_rom_length (P : platform) (boot elf : Buffer) (seg0 : segment)
    (hwf : P.wf) (hlen : 0x1000 ≤ boot.length) :
    field (patched_boot P boot elf seg0) P.rom_length
      = bytes_le (LE_TO_BE32 (sub32 seg0.rom_end seg0.rom_start)) := by
  obtain ⟨h1, h2, h3, h4, -⟩ := hwf
  have l1 := put32_length boot P.pi_regs (P.PI_VALUES % U32) (by omega)
  have l2 := put32_length _ P.boot_address (le32 (field elf P.entry)) (by rw [l1]; omega)
  have l3 := put32_length _ P.rom_start (LE_TO_BE32 seg0.rom_start)
    (by rw [l2, l1]; omega)
  rw [patched_boot, field_take _ _ _ h4, field_put32_same _ _ _ (by rw [l3, l2, l1]; omega)]

theorem patched_boot_rom_start (P : platform) (boot elf : Buffer) (seg0 : segment)
    (hwf : P.wf) (hlen : 0x1000 ≤ boot.length) :
    field (patched_boot P boot elf seg0) P.rom_start
      = bytes_le (LE_TO_BE32 seg0.rom_start) := by
  obtain ⟨h1, h2, h3, h4, -, -, -, -, -, a34⟩ := hwf
  have l1 := put32_length boot P.pi_regs (P.PI_VALUES % U32) (by omega)
  have l2 := put32_length _ P.boot_address (le32 (field elf P.entry)) (by rw [l1]; omega)
  have l3 := put32_length _ P.rom_start (LE_TO_BE32 seg0.rom_start)
    (by rw [l2, l1]; omega)
  rw [patched_boot, field_take _ _ _ h3,
    field_put32_other _ _ _ _ (by rw [l3, l2, l1]; omega) (apart_symm a34),
    field_put32_same _ _ _ (by rw [l2, l1]; omega)]

theorem patched_boot_boot_address (P : platform) (boot elf : Buffer) (seg0 : segment)
    (hwf : P.wf) (hlen : 0x1000 ≤ boot.length) (hentry : P.entry + 4 ≤ elf.length) :
    field (patched_boot P boot elf seg0) P.boot_address = field elf P.entry := by
  obtain ⟨h1, h2, h3, h4, -, -, -, a23, a24, -⟩ := hwf
  have l1 := put32_length boot P.pi_regs (P.PI_VALUES % U32) (by omega)
  have l2 := put32_length _ P.boot_address (le32 (field elf P.entry)) (by rw [l1]; omega)
  have l3 := put32_length _ P.rom_start (LE_TO_BE32 seg0.rom_start)
    (by rw [l2, l1]; omega)
  rw [patched_boot, field_take _ _ _ h2,
    field_put32_other _ _ _ _ (by rw [l3, l2, l1]; omega) (apart_symm a24),
    field_put32_other _ _ _ _ (by rw [l2, l1]; omega) (apart_symm a23),
    field_put32_same _ _ _ (by rw [l1]; omega),
    bytes_le_le32 _ (field_length elf P.entry hentry)]

theorem laid_out_head_lt (gs : Reader) (segs : List segment) (c : Nat) (hc : c < U32)
    (hne : laid_out gs segs c ≠ []) : ((laid_out gs segs c).head hne).rom_start < U32 := by
  cases segs with
  | nil => exact absurd rfl hne
  | cons seg rest => exact hc

/-! ## Layout lemmas -/

theorem sum_section_sizes_found (gs : Reader) (secs : List section_t) (acc : Nat)
    (hacc : acc < U32) (h : sections_found gs secs) :
    sum_section_sizes gs secs acc = some ((acc + (secs.map (section_size gs)).sum) % U32) := by
  induction secs generalizing acc with
  | nil =>
    simp only [sum_section_sizes, List.map_nil, List.sum_nil, Option.some.injEq, U32] at *
    omega
  | cons sec rest ih =>
    have hsec := h sec (List.mem_cons_self _ _)
    have hrest : sections_found gs rest := fun x hx => h x (List.mem_cons_of_mem _ hx)
    obtain ⟨ht, hd⟩ := hsec
    obtain ⟨t, ht⟩ := Option.isSome_iff_exists.mp ht
    obtain ⟨d, hd⟩ := Option.isSome_iff_exists.mp hd
    have hlt : (acc + (BE_TO_LE32 t.size + BE_TO_LE32 d.size) % U32) % U32 < U32 :=
      Nat.mod_lt _ (by decide)
    simp only [sum_section_sizes, ht, hd, ih _ hlt hrest, List.map_cons, List.sum_cons,
      section_size, Option.some.injEq, U32]
    omega

theorem layout_from_found (gs : Reader) (segs : List segment) (c : Nat)
    (h : all_found gs segs) :
    layout_from gs segs c = some (laid_out gs segs c) := by
  induction segs generalizing c with
  | nil => rfl
  | cons seg rest ih =>
    have hseg : sections_found gs seg.sections := h seg (List.mem_cons_self _ _)
    have hrest : all_found gs rest := fun x hx => h x (List.mem_cons_of_mem _ hx)
    have hs := sum_section_sizes_found gs seg.sections 0 (by decide) hseg
    simp only [Nat.zero_add] at hs
    simp only [layout_from, hs, ih _ hrest, laid_out, size_sum]

theorem laid_out_length (gs : Reader) (segs : List segment) (c : Nat) :
    (laid_out gs segs c).length = segs.length := by
  induction segs generalizing c with
  | nil => rfl
  | cons seg rest ih => simp [laid_out, ih]

theorem laid_out_names (gs : Reader) (segs : List segment) (c : Nat) :
    (laid_out gs segs c).map segment.name = segs.map segment.name := by
  induction segs generalizing c with
  | nil => rfl
  | cons seg rest ih => simp [laid_out, ih]

theorem laid_out_sections (gs : Reader) (segs : List segment) (c : Nat) :
    (laid_out gs segs c).map segment.sections = segs.map segment.sections := by
  induction segs generalizing c with
  | nil => rfl
  | cons seg rest ih => simp [laid_out, ih]

theorem laid_out_head (gs : Reader) (segs : List segment) (c : Nat)
    (h : 0 < (laid_out gs segs c).length) : (laid_out gs segs c)[0].rom_start = c := by
  cases segs with
  | nil => simp [laid_out] at h
  | cons seg rest => simp [laid_out]

theorem laid_out_chain (gs : Reader) (segs : List segment) (c : Nat) (i : Nat)
    (h : i + 1 < (laid_out gs segs c).length) :
    (laid_out gs segs c)[i + 1].rom_start = (laid_out gs segs c)[i].rom_end := by
  induction segs generalizing c i with
  | nil => simp [laid_out] at h
  | cons seg rest ih =>
    cases i with
    | zero =>
      simp only [laid_out, List.getElem_cons_succ, List.getElem_cons_zero]
      exact laid_out_head gs rest _ _
    | succ k =>
      simp only [laid_out, List.getElem_cons_succ]
      exact ih _ k _

theorem laid_out_size (gs : Reader) (segs : List segment) (c : Nat) (hc : c < U32)
    (i : Nat) (h : i < (laid_out gs segs c).length) :
    sub32 (laid_out gs segs c)[i].rom_end (laid_out gs segs c)[i].rom_start
      = size_sum gs (laid_out gs segs c)[i] % U32 := by
  induction segs generalizing c i with
  | nil => simp [laid_out] at h
  | cons seg rest ih =>
    cases i with
    | zero =>
      simp only [laid_out, List.getElem_cons_zero, size_sum, sub32, U32] at *
      omega
    | succ k =>
      simp only [laid_out, List.getElem_cons_succ]
      exact ih _ (Nat.mod_lt _ (by decide)) k _

theorem laid_out_start (gs : Reader) (segs : List segment) (c : Nat)
    (i : Nat) (h : i < (laid_out gs segs c).length) :
    (laid_out gs segs c)[i].rom_start
      = (segs.take i).foldl (fun c seg => (c + size_sum gs seg % U32) % U32) c := by
  induction segs generalizing c i with
  | nil => simp [laid_out] at h
  | cons seg rest ih =>
    cases i with
    | zero => simp [laid_out]
    | succ k =>
      simp only [laid_out, List.getElem_cons_succ, List.take_succ_cons, List.foldl_cons]
      exact ih _ k _

theorem laid_out_empty (gs : Reader) (segs : List segment) (c : Nat) (hc : c < U32)
    (i : Nat) (h : i < (laid_out gs segs c).length)
    (hz : (laid_out gs segs c)[i].sections = []) :
    (laid_out gs segs c)[i].rom_end = (laid_out gs segs c)[i].rom_start := by
  induction segs generalizing c i with
  | nil => simp [laid_out] at h
  | cons seg rest ih =>
    cases i with
    | zero =>
      simp only [laid_out, List.getElem_cons_zero] at hz ⊢
      simp only [size_sum, hz, List.map_nil, List.sum_nil, U32] at *
      omega
    | succ k =>
      simp only [laid_out, List.getElem_cons_succ] at hz ⊢
      exact ih _ (Nat.mod_lt _ (by decide)) k _ hz

theorem laid_out_bounds (gs : Reader) (segs : List segment) (c : Nat)
    (hc : c + total_size gs segs < U32) :
    ∀ x ∈ laid_out gs segs c,
      c ≤ x.rom_start ∧ x.rom_start ≤ x.rom_end ∧ x.rom_end ≤ c + total_size gs segs := by
  induction segs generalizing c with
  | nil => simp [laid_out]
  | cons seg rest ih =>
    intro x hx
    simp only [total_size, List.map_cons, List.sum_cons] at hc ⊢
    have hs : size_sum gs seg % U32 < U32 := Nat.mod_lt _ (by decide)
    have hn : (c + size_sum gs seg % U32) % U32 = c + size_sum gs seg % U32 :=
      Nat.mod_eq_of_lt (by unfold total_size at *; omega)
    simp only [laid_out, hn, List.mem_cons] at hx
    rcases hx with rfl | hx
    · simp only
      omega
    · have := ih (c + size_sum gs seg % U32) (by unfold total_size at *; omega) x hx
      unfold total_size at this
      omega

theorem laid_out_pairwise (gs : Reader) (segs : List segment) (c : Nat)
    (hc : c + total_size gs segs < U32) :
    (laid_out gs segs c).Pairwise (fun a b => a.rom_end ≤ b.rom_start) := by
  induction segs generalizing c with
  | nil => simp [laid_out]
  | cons seg rest ih =>
    have hc' := hc
    simp only [total_size, List.map_cons, List.sum_cons] at hc'
    have hn : (c + size_sum gs seg % U32) % U32 = c + size_sum gs seg % U32 :=
      Nat.mod_eq_of_lt (by omega)
    have hr : c + size_sum gs seg % U32 + total_size gs rest < U32 := by
      unfold total_size; omega
    simp only [laid_out, hn, List.pairwise_cons]
    refine ⟨fun b hb => ?_, ih _ hr⟩
    exact (laid_out_bounds gs rest _ hr b hb).1

theorem laid_out_contiguous (gs : Reader) (segs : List segment) (c : Nat)
    (hc : c + total_size gs segs < U32) : contiguous_from c (laid_out gs segs c) := by
  induction segs generalizing c with
  | nil => trivial
  | cons seg rest ih =>
    have hc' := hc
    simp only [total_size, List.map_cons, List.sum_cons] at hc'
    have hn : (c + size_sum gs seg % U32) % U32 = c + size_sum gs seg % U32 :=
      Nat.mod_eq_of_lt (by omega)
    have hr : c + size_sum gs seg % U32 + total_size gs rest < U32 := by
      unfold total_size; omega
    simp only [laid_out, hn, contiguous_from, true_and]
    exact ⟨Nat.le_add_right _ _, ih _ hr⟩

theorem contiguous_slices (f : segment → List Byte) (segs : List segment) (c : Nat)
    (pre : List Byte) (hcont : contiguous_from c segs) (hpre : pre.length = c)
    (hlen : ∀ seg ∈ segs, (f seg).length = seg.rom_end - seg.rom_start)
    (i : Nat) (h : i < segs.length) :
    ((pre ++ (segs.map f).flatten).drop segs[i].rom_start).take
        (segs[i].rom_end - segs[i].rom_start) = f segs[i] := by
  induction segs generalizing c pre i with
  | nil => simp at h
  | cons seg rest ih =>
    obtain ⟨hs, hle, hrest⟩ := hcont
    have hl := hlen seg (List.mem_cons_self _ _)
    cases i with
    | zero =>
      simp only [List.getElem_cons_zero, List.map_cons, List.flatten_cons]
      rw [List.drop_left' (by omega), ← hl, List.take_left]
    | succ k =>
      simp only [List.getElem_cons_succ, List.map_cons, List.flatten_cons]
      rw [← List.append_assoc]
      exact ih seg.rom_end (pre ++ f seg) hrest (by rw [List.length_append]; omega)
        (fun x hx => hlen x (List.mem_cons_of_mem _ hx)) k _

theorem contiguous_length (f : segment → List Byte) (segs : List segment) (c : Nat)
    (pre : List Byte) (hcont : contiguous_from c segs) (hpre : pre.length = c)
    (hlen : ∀ seg ∈ segs, (f seg).length = seg.rom_end - seg.rom_start)
    (hne : segs ≠ []) :
    (pre ++ (segs.map f).flatten).length = (segs.getLast hne).rom_end := by
  induction segs generalizing c pre with
  | nil => exact absurd rfl hne
  | cons seg rest ih =>
    obtain ⟨hs, hle, hrest⟩ := hcont
    have hl := hlen seg (List.mem_cons_self _ _)
    cases rest with
    | nil => simp [hl]; omega
    | cons seg' rest' =>
      rw [List.getLast_cons (by simp), List.map_cons, List.flatten_cons,
        ← List.append_assoc]
      exact ih seg.rom_end (pre ++ f seg) hrest (by rw [List.length_append]; omega)
        (fun x hx => hlen x (List.mem_cons_of_mem _ hx)) (by simp)

theorem sub32_eq_sub (a b : Nat) (hab : b ≤ a) (ha : a < U32) : sub32 a b = a - b := by
  simp only [sub32, U32] at *
  omega

theorem calculate_rom_layout_found (gs : Reader) (segs : List segment)
    (h : all_found gs segs) :
    calculate_rom_layout gs segs = some (laid_out gs segs 0x1000) :=
  layout_from_found gs segs 0x1000 h

theorem sum_section_sizes_some (gs : Reader) (secs : List section_t) (acc s : Nat)
    (h : sum_section_sizes gs secs acc = some s) : sections_found gs secs := by
  induction secs generalizing acc with
  | nil => intro x hx; simp at hx
  | cons sec rest ih =>
    unfold sum_section_sizes at h
    split at h
    · rename_i text data ht hd
      intro x hx
      rcases List.mem_cons.mp hx with rfl | hx
      · simp [ht, hd]
      · exact ih _ h x hx
    · simp at h

theorem layout_from_some (gs : Reader) (segs : List segment) (c : Nat) (out : List segment)
    (h : layout_from gs segs c = some out) : all_found gs segs := by
  induction segs generalizing c out with
  | nil => intro x hx; simp at hx
  | cons seg rest ih =>
    unfold layout_from at h
    split at h
    · simp at h
    · rename_i sz hsz
      simp only at h
      split at h
      · simp at h
      · rename_i rest' hrest
        intro x hx
        rcases List.mem_cons.mp hx with rfl | hx
        · exact sum_section_sizes_some gs _ _ _ hsz
        · exact ih _ _ hrest x hx

theorem calculate_rom_layout_some (gs : Reader) (segs out : List segment)
    (h : calculate_rom_layout gs segs = some out) : out = laid_out gs segs 0x1000 := by
  have hf := layout_from_some gs segs _ out h
  rw [calculate_rom_layout_found gs segs hf] at h
  exact (Option.some.inj h).symm

/-! ## Claims about `calculate_rom_layout` -/

/-- C1: after `calculate_rom_layout` the registry has the same segments in the same
order, the first range starts at `0x1000`, and every further range starts where the
previous one ends. -/
theorem C1_layout_contiguous (gs : Reader) (segs : List segment)
    (hfound : all_found gs segs) :
    ∃ out, calculate_rom_layout gs segs = some out ∧
      out.length = segs.length ∧
      out.map segment.name = segs.map segment.name ∧
      out.map segment.sections = segs.map segment.sections ∧
      (∀ h : 0 < out.length, out[0].rom_start = 0x1000) ∧
      (∀ i, ∀ h : i + 1 < out.length, out[i + 1].rom_start = out[i].rom_end) :=
  ⟨laid_out gs segs 0x1000, calculate_rom_layout_found gs segs hfound,
    laid_out_length gs segs _, laid_out_names gs segs _, laid_out_sections gs segs _,
    fun h => laid_out_head gs segs _ h, fun i h => laid_out_chain gs segs _ i h⟩

/-- C1 on the worked scenario: sizes `0x100` and `0x200` in `boot` and `0x500` in `main`
give the ranges `[0x1000, 0x1300)` and `[0x1300, 0x1800)`. -/
theorem C1_layout_contiguous_witness :
    all_found scenario_reader scenario_segments ∧
    calculate_rom_layout scenario_reader scenario_segments =
      some [⟨"boot", [obj1, obj2], 0x1000, 0x1300⟩, ⟨"main", [obj3], 0x1300, 0x1800⟩] ∧
    ∃ out, calculate_rom_layout scenario_reader scenario_segments = some out ∧
      out.length = scenario_segments.length ∧
      out.map segment.name = scenario_segments.map segment.name ∧
      out.map segment.sections = scenario_segments.map segment.sections ∧
      (∀ h : 0 < out.length, out[0].rom_start = 0x1000) ∧
      (∀ i, ∀ h : i + 1 < out.length, out[i + 1].rom_start = out[i].rom_end) :=
  ⟨by decide, by decide, C1_layout_contiguous scenario_reader scenario_segments (by decide)⟩

/-- C2: for every segment, `rom_end - rom_start` in `uint32_t` arithmetic equals the sum
over its sections of byte-swapped `.text` size plus byte-swapped `.data` size, the sum
being accumulated in `uint32_t` as well; the two agree as natural numbers whenever the
sum is below `2 ^ 32`. -/
theorem C2_range_length_is_size_sum (gs : Reader) (segs : List segment)
    (hfound : all_found gs segs) :
    ∃ out, calculate_rom_layout gs segs = some out ∧
      out.map segment.sections = segs.map segment.sections ∧
      ∀ i, ∀ h : i < out.length,
        sub32 out[i].rom_end out[i].rom_start = size_sum gs out[i] % U32 ∧
        (size_sum gs out[i] < U32 →
          sub32 out[i].rom_end out[i].rom_start = size_sum gs out[i]) := by
  refine ⟨laid_out gs segs 0x1000, calculate_rom_layout_found gs segs hfound,
    laid_out_sections gs segs _, fun i h => ?_⟩
  have hs := laid_out_size gs segs 0x1000 (by decide) i h
  exact ⟨hs, fun hlt => by rw [hs, Nat.mod_eq_of_lt hlt]⟩

/-- C2 on the worked scenario. -/
theorem C2_range_length_is_size_sum_witness :
    all_found scenario_reader scenario_segments ∧
    ∃ out, calculate_rom_layout scenario_reader scenario_segments = some out ∧
      out.map segment.sections = scenario_segments.map segment.sections ∧
      ∀ i, ∀ h : i < out.length,
        sub32 out[i].rom_end out[i].rom_start = size_sum scenario_reader out[i] % U32 ∧
        (size_sum scenario_reader out[i] < U32 →
          sub32 out[i].rom_end out[i].rom_start = size_sum scenario_reader out[i]) :=
  ⟨by decide, C2_range_length_is_size_sum scenario_reader scenario_segments (by decide)⟩

/-- C3, as stated, fails: a section of size `0xFFFFF000` makes the counter wrap, and the
segment is stored with `rom_start = 0x1000` and `rom_end = 0`. -/
theorem C3_counterexample :
    all_found wrap_reader wrap_segments ∧
    calculate_rom_layout wrap_reader wrap_segments
      = some [⟨"boot", [wrap_obj], 0x1000, 0⟩] ∧
    ¬ (∀ out, calculate_rom_layout wrap_reader wrap_segments = some out →
        ∀ seg ∈ out, seg.rom_start ≤ seg.rom_end) := by
  refine ⟨by decide, by decide, fun h => ?_⟩
  have := h [⟨"boot", [wrap_obj], 0x1000, 0⟩] (by decide) ⟨"boot", [wrap_obj], 0x1000, 0⟩
    (List.mem_singleton.mpr rfl)
  exact absurd this (by decide)

/-- C3, amended: when `0x1000` plus the sum of the 32-bit segment sizes stays below
`2 ^ 32`, every segment has `rom_start ≤ rom_end` and every earlier segment ends at or
before the start of every later one. -/
theorem C3_layout_monotone (gs : Reader) (segs : List segment)
    (hfound : all_found gs segs) (hnowrap : 0x1000 + total_size gs segs < U32) :
    ∃ out, calculate_rom_layout gs segs = some out ∧
      (∀ i, ∀ h : i < out.length, out[i].rom_start ≤ out[i].rom_end) ∧
      (∀ i j, ∀ hi : i < out.length, ∀ hj : j < out.length, i < j →
        out[i].rom_end ≤ out[j].rom_start) := by
  refine ⟨laid_out gs segs 0x1000, calculate_rom_layout_found gs segs hfound,
    fun i h => ?_, fun i j hi hj hij => ?_⟩
  · exact (laid_out_bounds gs segs _ hnowrap _ (List.getElem_mem h)).2.1
  · exact List.pairwise_iff_getElem.mp (laid_out_pairwise gs segs _ hnowrap) i j hi hj hij

/-- C3 (amended) on the worked scenario. -/
theorem C3_layout_monotone_witness :
    all_found scenario_reader scenario_segments ∧
    0x1000 + total_size scenario_reader scenario_segments < U32 ∧
    ∃ out, calculate_rom_layout scenario_reader scenario_segments = some out ∧
      (∀ i, ∀ h : i < out.length, out[i].rom_start ≤ out[i].rom_end) ∧
      (∀ i j, ∀ hi : i < out.length, ∀ hj : j < out.length, i < j →
        out[i].rom_end ≤ out[j].rom_start) :=
  ⟨by decide, by decide,
    C3_layout_monotone scenario_reader scenario_segments (by decide) (by decide)⟩

/-- C4: a segment with no sections gets `rom_end = rom_start`, and both are the value of
the running counter after the segments before it (`0x1000` for the first segment). -/
theorem C4_empty_segment (gs : Reader) (segs : List segment)
    (hfound : all_found gs segs) :
    ∃ out, calculate_rom_layout gs segs = some out ∧
      out.map segment.sections = segs.map segment.sections ∧
      counter_after gs (segs.take 0) = 0x1000 ∧
      ∀ i, ∀ h : i < out.length, out[i].sections = [] →
        out[i].rom_end = out[i].rom_start ∧
        out[i].rom_start = counter_after gs (segs.take i) := by
  refine ⟨laid_out gs segs 0x1000, calculate_rom_layout_found gs segs hfound,
    laid_out_sections gs segs _, rfl, fun i h hz => ?_⟩
  exact ⟨laid_out_empty gs segs _ (by decide) i h hz, laid_out_start gs segs _ i h⟩

/-- C4 on a registry whose middle segment is empty: it is laid out as
`[0x1300, 0x1300)`. -/
theorem C4_empty_segment_witness :
    all_found scenario_reader gap_segments ∧
    calculate_rom_layout scenario_reader gap_segments =
      some [⟨"boot", [obj1, obj2], 0x1000, 0x1300⟩, ⟨"empty", [], 0x1300, 0x1300⟩,
        ⟨"main", [obj3], 0x1300, 0x1800⟩] ∧
    ∃ out, calculate_rom_layout scenario_reader gap_segments = some out ∧
      out.map segment.sections = gap_segments.map segment.sections ∧
      counter_after scenario_reader (gap_segments.take 0) = 0x1000 ∧
      ∀ i, ∀ h : i < out.length, out[i].sections = [] →
        out[i].rom_end = out[i].rom_start ∧
        out[i].rom_start = counter_after scenario_reader (gap_segments.take i) :=
  ⟨by decide, by decide, C4_empty_segment scenario_reader gap_segments (by decide)⟩

/-! ## Claims about `make_rom` -/

/-- C5: with an empty registry `calculate_rom_layout` assigns nothing, but `make_rom`
never produces an image: it reads `segments[0]` before its loop. With a 4096-byte boot
file and a linked output present, the run ends in the null dereference. -/
theorem C5_empty_registry_make_rom_faults :
    (∀ gs : Reader, calculate_rom_layout gs [] = some []) ∧
    (∀ (P : platform) (gs : Reader) (fs : Files) (rom_name bootcode : String)
      (img : Buffer), make_rom P gs fs [] rom_name bootcode ≠ .ok img) ∧
    make_rom demo_platform pad_reader (files_with demo_boot pad_elf) [] "rom.z64"
      "boot.bin" = .error .null_deref :=
  ⟨fun _ => rfl, make_rom_nil,
    make_rom_nil_fault demo_platform pad_reader _ _ _ demo_boot pad_elf (by decide) (by decide) rfl rfl
      (Nat.le_of_eq demo_boot_length.symm) (by decide)⟩

/-- C6, as stated, fails: the two objects of `boot` report 4 + 4 bytes and the object of
`main` reports 4, so the laid-out lengths add up to 12, while the linked output reports
12 bytes for `.boot.text` and 4 for `.main.text`; the image is 4096 + 16 bytes long, not
4096 + 12. -/
theorem C6_counterexample :
    calculate_rom_layout pad_reader pad_segments = some pad_laid_out ∧
    slices_ok pad_reader pad_elf pad_laid_out ∧
    (∃ img, make_rom demo_platform pad_reader (files_with demo_boot pad_elf) pad_laid_out
        "rom.z64" "boot.bin" = .ok img ∧ img.length = 0x1000 + 16) ∧
    0x1000 + (pad_laid_out.map (fun seg => sub32 seg.rom_end seg.rom_start)).sum
      = 0x1000 + 12 :=
  ⟨by decide, by decide,
    make_rom_length demo_platform pad_reader _ pad_laid_out "rom.z64" "boot.bin" demo_boot
      pad_elf (by decide) (by decide) (by decide) rfl rfl (Nat.le_of_eq demo_boot_length.symm)
      (by decide) (by decide),
    by decide⟩

/-- C6, amended: for a non-empty registry, a boot-code buffer of at least 4096 bytes and
a linked output in which every segment's `.<name>.text` section is found, lies inside
the buffer and has a size equal to that segment's `rom_end - rom_start`, the image
written by `make_rom` has 4096 plus the sum of all `rom_end - rom_start` bytes. (The
run hypotheses: the output file is neither of the two input files, both exist, and the
header of the linked output holds its `entry` member.) -/
theorem C6_image_length (P : platform) (gs : Reader) (fs : Files) (segs : List segment)
    (rom_name bootcode : String) (boot elf : Buffer)
    (hne : segs ≠ []) (hwf : P.wf) (hout : rom_name ≠ bootcode ∧ rom_name ≠ "rom.elf")
    (hboot : fs bootcode = some boot)
    (helf : fs "rom.elf" = some elf) (hlen : 0x1000 ≤ boot.length)
    (hentry : P.entry + 4 ≤ elf.length) (hslices : slices_ok gs elf segs)
    (hsize : ∀ seg ∈ segs, linked_size gs elf seg = sub32 seg.rom_end seg.rom_start) :
    ∃ img, make_rom P gs fs segs rom_name bootcode = .ok img ∧
      img.length = 0x1000 + (segs.map (fun seg => sub32 seg.rom_end seg.rom_start)).sum := by
  obtain ⟨img, hok, hl⟩ :=
    make_rom_length P gs fs segs rom_name bootcode boot elf hne hwf hout hboot helf hlen hentry
      hslices
  refine ⟨img, hok, ?_⟩
  rw [hl, List.map_congr_left hsize]

/-- C6 (amended) on the registry `boot a.o b.o ; main c.o ;` with a linked output whose
sections have the laid-out sizes of 8 and 4 bytes. -/
theorem C6_image_length_witness :
    calculate_rom_layout pad_reader pad_segments = some pad_laid_out ∧
    ∃ img, make_rom demo_platform pad_reader (files_with demo_boot tight_elf) pad_laid_out
        "rom.z64" "boot.bin" = .ok img ∧
      img.length
        = 0x1000 + (pad_laid_out.map (fun seg => sub32 seg.rom_end seg.rom_start)).sum :=
  ⟨by decide,
    C6_image_length demo_platform pad_reader _ pad_laid_out "rom.z64" "boot.bin" demo_boot
      tight_elf (by decide) (by decide) (by decide) rfl rfl (Nat.le_of_eq demo_boot_length.symm)
      (by decide) (by decide) (by decide)⟩

/-- C7: for a non-empty registry laid out by `calculate_rom_layout` without wrap of the
counter, if every segment's `.<name>.text` section of the linked output has the size
`rom_end - rom_start`, then in the image each segment's bytes occupy exactly the offsets
from `rom_start` up to `rom_end`; the first segment starts right after the boot block,
each further one where the previous one ends, and the image ends with the last
segment. (Run hypotheses as for C6.) -/
theorem C7_segments_at_layout_offsets (P : platform) (gs : Reader) (fs : Files)
    (segs0 segs : List segment) (rom_name bootcode : String) (boot elf : Buffer)
    (hlay : calculate_rom_layout gs segs0 = some segs) (hne : segs ≠ [])
    (hwf : P.wf) (hout : rom_name ≠ bootcode ∧ rom_name ≠ "rom.elf")
    (hboot : fs bootcode = some boot) (helf : fs "rom.elf" = some elf)
    (hlen : 0x1000 ≤ boot.length) (hentry : P.entry + 4 ≤ elf.length)
    (hslices : slices_ok gs elf segs)
    (hsize : ∀ seg ∈ segs, linked_size gs elf seg = sub32 seg.rom_end seg.rom_start)
    (hnowrap : 0x1000 + total_size gs segs0 < U32) :
    ∃ img, make_rom P gs fs segs rom_name bootcode = .ok img ∧
      (∀ i, ∀ h : i < segs.length,
        segs[i].rom_start ≤ segs[i].rom_end ∧
        (segment_slice gs elf segs[i]).length = segs[i].rom_end - segs[i].rom_start ∧
        (img.drop segs[i].rom_start).take (segs[i].rom_end - segs[i].rom_start)
          = segment_slice gs elf segs[i]) ∧
      (∀ h : 0 < segs.length, segs[0].rom_start = 0x1000) ∧
      (∀ i, ∀ h : i + 1 < segs.length, segs[i + 1].rom_start = segs[i].rom_end) ∧
      img.length = (segs.getLast hne).rom_end := by
  have hseq := calculate_rom_layout_some gs segs0 segs hlay
  subst hseq
  have hcont := laid_out_contiguous gs segs0 0x1000 hnowrap
  have hb := laid_out_bounds gs segs0 0x1000 hnowrap
  have hl : ∀ seg ∈ laid_out gs segs0 0x1000,
      (segment_slice gs elf seg).length = seg.rom_end - seg.rom_start := by
    intro seg hseg
    obtain ⟨-, h1, h2⟩ := hb seg hseg
    rw [segment_slice_length gs elf seg (hslices seg hseg), hsize seg hseg,
      sub32_eq_sub _ _ h1 (by omega)]
  obtain ⟨seg0, rest, -, hok⟩ :=
    make_rom_image P gs fs _ rom_name bootcode boot elf hne hwf hout hboot helf hlen hentry
      hslices
  have hp := patched_boot_length P boot elf seg0 hwf hlen
  refine ⟨_, hok, fun i h => ⟨?_, ?_, ?_⟩, ?_, ?_, ?_⟩
  · exact (hb _ (List.getElem_mem h)).2.1
  · exact hl _ (List.getElem_mem h)
  · exact contiguous_slices _ _ 0x1000 _ hcont hp hl i h
  · exact fun h => laid_out_head gs segs0 _ h
  · exact fun i h => laid_out_chain gs segs0 _ i h
  · exact contiguous_length _ _ 0x1000 _ hcont hp hl hne

/-- C7 on the registry `boot a.o b.o ; main c.o ;` with a linked output whose sections
have the laid-out sizes of 8 and 4 bytes. -/
theorem C7_segments_at_layout_offsets_witness :
    ∃ img, make_rom demo_platform pad_reader (files_with demo_boot tight_elf) pad_laid_out
        "rom.z64" "boot.bin" = .ok img ∧
      (∀ i, ∀ h : i < pad_laid_out.length,
        pad_laid_out[i].rom_start ≤ pad_laid_out[i].rom_end ∧
        (segment_slice pad_reader tight_elf pad_laid_out[i]).length
          = pad_laid_out[i].rom_end - pad_laid_out[i].rom_start ∧
        (img.drop pad_laid_out[i].rom_start).take
            (pad_laid_out[i].rom_end - pad_laid_out[i].rom_start)
          = segment_slice pad_reader tight_elf pad_laid_out[i]) ∧
      (∀ h : 0 < pad_laid_out.length, pad_laid_out[0].rom_start = 0x1000) ∧
      (∀ i, ∀ h : i + 1 < pad_laid_out.length,
        pad_laid_out[i + 1].rom_start = pad_laid_out[i].rom_end) ∧
      img.length = (pad_laid_out.getLast (by decide)).rom_end :=
  C7_segments_at_layout_offsets demo_platform pad_reader _ pad_segments pad_laid_out
    "rom.z64" "boot.bin" demo_boot tight_elf (by decide) (by decide) (by decide) (by decide) rfl rfl
    (Nat.le_of_eq demo_boot_length.symm) (by decide) (by decide) (by decide) (by decide)

/-- C8: for a non-empty registry and a linked output in which every lookup succeeds (and
the section found lies inside the buffer), the bytes of the image after its first 4096
are exactly the segments' slices of the linked output, concatenated in registry order;
the image has no further bytes. (Run hypotheses as for C6.) -/
theorem C8_image_tail_is_slices (P : platform) (gs : Reader) (fs : Files)
    (segs : List segment) (rom_name bootcode : String) (boot elf : Buffer)
    (hne : segs ≠ []) (hwf : P.wf) (hout : rom_name ≠ bootcode ∧ rom_name ≠ "rom.elf")
    (hboot : fs bootcode = some boot)
    (helf : fs "rom.elf" = some elf) (hlen : 0x1000 ≤ boot.length)
    (hentry : P.entry + 4 ≤ elf.length) (hslices : slices_ok gs elf segs) :
    ∃ img, make_rom P gs fs segs rom_name bootcode = .ok img ∧
      img.drop 0x1000 = (segs.map (segment_slice gs elf)).flatten ∧
      img.length = 0x1000 + ((segs.map (segment_slice gs elf)).flatten).length := by
  obtain ⟨seg0, rest, -, hok⟩ :=
    make_rom_image P gs fs segs rom_name bootcode boot elf hne hwf hout hboot helf hlen hentry
      hslices
  have hp := patched_boot_length P boot elf seg0 hwf hlen
  exact ⟨_, hok, List.drop_left' hp, by rw [List.length_append, hp]⟩

/-- C8 on the registry `boot a.o b.o ; main c.o ;`: the image continues with the eight
bytes of `.boot.text` and the four bytes of `.main.text`. -/
theorem C8_image_tail_is_slices_witness :
    (pad_laid_out.map (segment_slice pad_reader tight_elf)).flatten
      = [3, 3, 3, 3, 3, 3, 3, 3, 4, 4, 4, 4] ∧
    ∃ img, make_rom demo_platform pad_reader (files_with demo_boot tight_elf) pad_laid_out
        "rom.z64" "boot.bin" = .ok img ∧
      img.drop 0x1000 = (pad_laid_out.map (segment_slice pad_reader tight_elf)).flatten ∧
      img.length
        = 0x1000 + ((pad_laid_out.map (segment_slice pad_reader tight_elf)).flatten).length :=
  ⟨by decide,
    C8_image_tail_is_slices demo_platform pad_reader _ pad_laid_out "rom.z64" "boot.bin"
      demo_boot tight_elf (by decide) (by decide) (by decide) rfl rfl
      (Nat.le_of_eq demo_boot_length.symm) (by decide) (by decide)⟩

/-- C9: for a non-empty registry laid out by `calculate_rom_layout`, the ROM-start and
ROM-length fields of the image's boot block, read as big-endian 32-bit values (that is,
`BE_TO_LE32` of what the host loads), are `segments[0].rom_start` and
`segments[0].rom_end - segments[0].rom_start`. (Run hypotheses as for C6.) -/
theorem C9_boot_block_rom_fields (P : platform) (gs : Reader) (fs : Files)
    (segs0 segs : List segment) (rom_name bootcode : String) (boot elf : Buffer)
    (hlay : calculate_rom_layout gs segs0 = some segs) (hne : segs ≠ [])
    (hwf : P.wf) (hout : rom_name ≠ bootcode ∧ rom_name ≠ "rom.elf")
    (hboot : fs bootcode = some boot) (helf : fs "rom.elf" = some elf)
    (hlen : 0x1000 ≤ boot.length) (hentry : P.entry + 4 ≤ elf.length)
    (hslices : slices_ok gs elf segs) :
    ∃ img, make_rom P gs fs segs rom_name bootcode = .ok img ∧
      be32 (field img P.rom_start) = (segs.head hne).rom_start ∧
      be32 (field img P.rom_length)
        = sub32 (segs.head hne).rom_end (segs.head hne).rom_start ∧
      BE_TO_LE32 (le32 (field img P.rom_start)) = (segs.head hne).rom_start ∧
      BE_TO_LE32 (le32 (field img P.rom_length))
        = sub32 (segs.head hne).rom_end (segs.head hne).rom_start := by
  have hseq := calculate_rom_layout_some gs segs0 segs hlay
  subst hseq
  have hlt := laid_out_head_lt gs segs0 0x1000 (by decide) hne
  obtain ⟨seg0, rest, hcons, hok⟩ :=
    make_rom_image P gs fs _ rom_name bootcode boot elf hne hwf hout hboot helf hlen hentry
      hslices
  have hhead : (laid_out gs segs0 0x1000).head hne = seg0 := by
    simp only [hcons, List.head_cons]
  rw [hhead] at hlt ⊢
  have hp := patched_boot_length P boot elf seg0 hwf hlen
  obtain ⟨h1, h2, h3, h4, -⟩ := id hwf
  have fs3 : field (patched_boot P boot elf seg0
      ++ ((laid_out gs segs0 0x1000).map (segment_slice gs elf)).flatten) P.rom_start
      = bytes_le (LE_TO_BE32 seg0.rom_start) := by
    rw [field_append _ _ _ (by omega), patched_boot_rom_start P boot elf seg0 hwf hlen]
  have fs4 : field (patched_boot P boot elf seg0
      ++ ((laid_out gs segs0 0x1000).map (segment_slice gs elf)).flatten) P.rom_length
      = bytes_le (LE_TO_BE32 (sub32 seg0.rom_end seg0.rom_start)) := by
    rw [field_append _ _ _ (by omega), patched_boot_rom_length P boot elf seg0 hwf hlen]
  have v3 : be32 (bytes_le (LE_TO_BE32 seg0.rom_start)) = seg0.rom_start := by
    rw [LE_TO_BE32, be32_bytes_le_bswap32, Nat.mod_eq_of_lt hlt]
  have v4 : be32 (bytes_le (LE_TO_BE32 (sub32 seg0.rom_end seg0.rom_start)))
      = sub32 seg0.rom_end seg0.rom_start := by
    rw [LE_TO_BE32, be32_bytes_le_bswap32, Nat.mod_eq_of_lt (sub32_lt _ _)]
  refine ⟨_, hok, ?_, ?_, ?_, ?_⟩
  · rw [fs3, v3]
  · rw [fs4, v4]
  · rw [fs3, ← be32_eq_swap_le32 _ (bytes_le_length _), v3]
  · rw [fs4, ← be32_eq_swap_le32 _ (bytes_le_length _), v4]

/-- C9 on the registry `boot a.o b.o ; main c.o ;`: the fields read `0x1000` and `8`. -/
theorem C9_boot_block_rom_fields_witness :
    (pad_laid_out.head (by decide)).rom_start = 0x1000 ∧
    sub32 (pad_laid_out.head (by decide)).rom_end (pad_laid_out.head (by decide)).rom_start
      = 8 ∧
    ∃ img, make_rom demo_platform pad_reader (files_with demo_boot tight_elf) pad_laid_out
        "rom.z64" "boot.bin" = .ok img ∧
      be32 (field img demo_platform.rom_start) = (pad_laid_out.head (by decide)).rom_start ∧
      be32 (field img demo_platform.rom_length)
        = sub32 (pad_laid_out.head (by decide)).rom_end
            (pad_laid_out.head (by decide)).rom_start ∧
      BE_TO_LE32 (le32 (field img demo_platform.rom_start))
        = (pad_laid_out.head (by decide)).rom_start ∧
      BE_TO_LE32 (le32 (field img demo_platform.rom_length))
        = sub32 (pad_laid_out.head (by decide)).rom_end
            (pad_laid_out.head (by decide)).rom_start :=
  ⟨by decide, by decide,
    C9_boot_block_rom_fields demo_platform pad_reader _ pad_segments pad_laid_out "rom.z64"
      "boot.bin" demo_boot tight_elf (by decide) (by decide) (by decide) (by decide) rfl rfl
      (Nat.le_of_eq demo_boot_length.symm) (by decide) (by decide)⟩

/-- C10: the boot-address field of the image's boot block holds the same four bytes as
the `entry` field of the linked output's header, so both decode to the same big-endian
32-bit value. (Run hypotheses as for C6.) -/
theorem C10_boot_address_is_entry (P : platform) (gs : Reader) (fs : Files)
    (segs : List segment) (rom_name bootcode : String) (boot elf : Buffer)
    (hne : segs ≠ []) (hwf : P.wf) (hout : rom_name ≠ bootcode ∧ rom_name ≠ "rom.elf")
    (hboot : fs bootcode = some boot)
    (helf : fs "rom.elf" = some elf) (hlen : 0x1000 ≤ boot.length)
    (hentry : P.entry + 4 ≤ elf.length) (hslices : slices_ok gs elf segs) :
    ∃ img, make_rom P gs fs segs rom_name bootcode = .ok img ∧
      field img P.boot_address = field elf P.entry ∧
      be32 (field img P.boot_address) = be32 (field elf P.entry) := by
  obtain ⟨seg0, rest, -, hok⟩ :=
    make_rom_image P gs fs segs rom_name bootcode boot elf hne hwf hout hboot helf hlen hentry
      hslices
  have hp := patched_boot_length P boot elf seg0 hwf hlen
  obtain ⟨h1, h2, -⟩ := id hwf
  have hf : field (patched_boot P boot elf seg0
      ++ (segs.map (segment_slice gs elf)).flatten) P.boot_address = field elf P.entry := by
    rw [field_append _ _ _ (by omega),
      patched_boot_boot_address P boot elf seg0 hwf hlen hentry]
  exact ⟨_, hok, hf, by rw [hf]⟩

/-- C10 on a linked output whose entry point is `0x80001000`. -/
theorem C10_boot_address_is_entry_witness :
    be32 (field tight_elf demo_platform.entry) = 0x80001000 ∧
    ∃ img, make_rom demo_platform pad_reader (files_with demo_boot tight_elf) pad_laid_out
        "rom.z64" "boot.bin" = .ok img ∧
      field img demo_platform.boot_address = field tight_elf demo_platform.entry ∧
      be32 (field img demo_platform.boot_address)
        = be32 (field tight_elf demo_platform.entry) :=
  ⟨by decide,
    C10_boot_address_is_entry demo_platform pad_reader _ pad_laid_out "rom.z64" "boot.bin"
      demo_boot tight_elf (by decide) (by decide) (by decide) rfl rfl
      (Nat.le_of_eq demo_boot_length.symm) (by decide) (by decide)⟩

/-! ## Frame of the boot block -/

theorem patched_boot_outside (P : platform) (boot elf : Buffer) (seg0 : segment)
    (hwf : P.wf) (hlen : 0x1000 ≤ boot.length) (i : Nat) (hi : i < 0x1000)
    (hout : outside_header P i) :
    (patched_boot P boot elf seg0)[i]? = boot[i]? := by
  obtain ⟨h1, h2, h3, h4, -⟩ := hwf
  obtain ⟨o1, o2, o3, o4⟩ := hout
  have l1 := put32_length boot P.pi_regs (P.PI_VALUES % U32) (by omega)
  have l2 := put32_length _ P.boot_address (le32 (field elf P.entry)) (by rw [l1]; omega)
  have l3 := put32_length _ P.rom_start (LE_TO_BE32 seg0.rom_start)
    (by rw [l2, l1]; omega)
  rw [patched_boot, List.getElem?_take_of_lt hi,
    getElem?_put32_outside _ _ _ _ (by rw [l3, l2, l1]; omega) o4,
    getElem?_put32_outside _ _ _ _ (by rw [l2, l1]; omega) o3,
    getElem?_put32_outside _ _ _ _ (by rw [l1]; omega) o2,
    getElem?_put32_outside _ _ _ _ (by omega) o1]

/-- C11: the first 4096 bytes of the image equal those of the boot-code buffer at every
position outside the four header members `pi_regs`, `boot_address`, `rom_start` and
`rom_length`; the boot block of the image is exactly 4096 bytes long. (Run hypotheses as
for C6.) -/
theorem C11_boot_block_frame (P : platform) (gs : Reader) (fs : Files)
    (segs : List segment) (rom_name bootcode : String) (boot elf : Buffer)
    (hne : segs ≠ []) (hwf : P.wf) (hout : rom_name ≠ bootcode ∧ rom_name ≠ "rom.elf")
    (hboot : fs bootcode = some boot)
    (helf : fs "rom.elf" = some elf) (hlen : 0x1000 ≤ boot.length)
    (hentry : P.entry + 4 ≤ elf.length) (hslices : slices_ok gs elf segs) :
    ∃ img, make_rom P gs fs segs rom_name bootcode = .ok img ∧
      0x1000 ≤ img.length ∧
      ∀ i, i < 0x1000 → outside_header P i → img[i]? = boot[i]? := by
  obtain ⟨seg0, rest, -, hok⟩ :=
    make_rom_image P gs fs segs rom_name bootcode boot elf hne hwf hout hboot helf hlen
      hentry hslices
  have hp := patched_boot_length P boot elf seg0 hwf hlen
  refine ⟨_, hok, by rw [List.length_append, hp]; omega, fun i hi ho => ?_⟩
  rw [List.getElem?_append_left (by omega)]
  exact patched_boot_outside P boot elf seg0 hwf hlen i hi ho

/-- C11 on the registry `boot a.o b.o ; main c.o ;` with a boot file of zero bytes. -/
theorem C11_boot_block_frame_witness :
    outside_header demo_platform 4 ∧ outside_header demo_platform 24 ∧
    ∃ img, make_rom demo_platform pad_reader (files_with demo_boot tight_elf) pad_laid_out
        "rom.z64" "boot.bin" = .ok img ∧
      0x1000 ≤ img.length ∧
      ∀ i, i < 0x1000 → outside_header demo_platform i → img[i]? = demo_boot[i]? :=
  ⟨by decide, by decide,
    C11_boot_block_frame demo_platform pad_reader _ pad_laid_out "rom.z64" "boot.bin"
      demo_boot tight_elf (by decide) (by decide) (by decide) rfl rfl
      (Nat.le_of_eq demo_boot_length.symm) (by decide) (by decide)⟩

/-! ## Lemmas about `generate_linker_script` -/

theorem emit_input_sections_eq (secs : List section_t) (l : Script) :
    emit_input_sections secs l
      = l ++ secs.map (fun sec => "\t" ++ sec.filename ++ "\n") := by
  induction secs generalizing l with
  | nil => simp [emit_input_sections]
  | cons sec rest ih => simp [emit_input_sections, ih, fprintf]

theorem emit_inputs_eq (segs : List segment) (l : Script) :
    emit_inputs segs l = l ++ (declared_paths segs).map (fun path => "\t" ++ path ++ "\n") := by
  induction segs generalizing l with
  | nil => simp [emit_inputs, declared_paths]
  | cons seg rest ih =>
    simp only [emit_inputs, ih, emit_input_sections_eq, declared_paths, List.map_cons,
      List.flatten_cons, List.map_append, List.append_assoc, List.map_map]
    rfl

theorem emit_text_sections_eq (secs : List section_t) (l : Script) :
    emit_text_sections secs l = l ++ text_body secs := by
  induction secs generalizing l with
  | nil => simp [emit_text_sections, text_body]
  | cons sec rest ih => simp [emit_text_sections, ih, fprintf, text_body]

theorem emit_bss_sections_eq (secs : List section_t) (l : Script) :
    emit_bss_sections secs l = l ++ bss_body secs := by
  induction secs generalizing l with
  | nil => simp [emit_bss_sections, bss_body]
  | cons sec rest ih => simp [emit_bss_sections, ih, fprintf, bss_body]

theorem emit_segments_eq (segs : List segment) (l : Script) :
    emit_segments segs l = l ++ (segs.map segment_region).flatten := by
  induction segs generalizing l with
  | nil => simp [emit_segments]
  | cons seg rest ih =>
    simp only [emit_segments, ih, fprintf, emit_text_sections_eq, emit_bss_sections_eq,
      segment_region, List.map_cons, List.flatten_cons, List.append_assoc,
      List.cons_append, List.nil_append]

theorem generate_linker_script_eq (segs : List segment) :
    generate_linker_script segs []
      = script_head segs ++ (segs.map segment_region).flatten ++ script_tail := by
  simp only [generate_linker_script, fprintf, emit_inputs_eq, emit_segments_eq, script_head,
    script_tail, List.append_assoc, List.cons_append, List.nil_append]

theorem tab_entry_ne_close (path : String) : ("\t" ++ path ++ "\n" != ")\n") = true := by
  rw [bne_iff_ne]
  intro h
  have hd := congrArg String.data h
  simp at hd

theorem takeWhile_append_stop {α : Type} (p : α → Bool) (l r : List α) (a : α)
    (hl : ∀ x ∈ l, p x = true) (ha : p a = false) :
    (l ++ a :: r).takeWhile p = l := by
  induction l with
  | nil => simp [List.takeWhile, ha]
  | cons x xs ih =>
    have hx := hl x (List.mem_cons_self _ _)
    simp only [List.cons_append, List.takeWhile_cons, hx, if_true]
    rw [ih (fun y hy => hl y (List.mem_cons_of_mem _ hy))]

theorem entry_path_entry (path : String) : entry_path ("\t" ++ path ++ "\n") = path := by
  simp [entry_path]

theorem entries_between_script (segs : List segment) :
    entries_between "INPUT(\n" ")\n" (generate_linker_script segs [])
      = (declared_paths segs).map (fun path => "\t" ++ path ++ "\n") := by
  rw [generate_linker_script_eq, script_head, entries_between]
  have e1 : ("/* This linker script was automatically generated by the pseultra makerom tool */\n"
      != "INPUT(\n") = true := by decide
  have e2 : ("ENTRY(_boot)\n" != "INPUT(\n") = true := by decide
  have e3 : ("INPUT(\n" != "INPUT(\n") = false := by decide
  simp only [List.cons_append, List.nil_append, List.dropWhile_cons, e1, e2, e3, if_true,
    Bool.false_eq_true, if_false, List.drop_succ_cons, List.drop_zero, List.append_assoc]
  apply takeWhile_append_stop
  · intro x hx
    obtain ⟨path, -, rfl⟩ := List.mem_map.mp hx
    exact tab_entry_ne_close path
  · decide

/-! ## Claims about `generate_linker_script` -/

/-- C12: the entries the script holds between `INPUT(` and `)` are, in order, one tab
indented line for each declared section, segment by segment and section by section;
their paths are exactly the declared file names, one entry for each section. -/
theorem C12_input_list (segs : List segment) :
    entries_between "INPUT(\n" ")\n" (generate_linker_script segs [])
      = (declared_paths segs).map (fun path => "\t" ++ path ++ "\n") ∧
    (entries_between "INPUT(\n" ")\n" (generate_linker_script segs [])).map entry_path
      = ((segs.map segment.sections).flatten).map section_t.filename ∧
    (entries_between "INPUT(\n" ")\n" (generate_linker_script segs [])).length
      = (segs.map (fun seg => seg.sections.length)).sum := by
  have h := entries_between_script segs
  refine ⟨h, ?_, ?_⟩
  · rw [h, List.map_map]
    have : (entry_path ∘ fun path => "\t" ++ path ++ "\n") = id := by
      funext path; exact entry_path_entry path
    rw [this, List.map_id, declared_paths]
  · rw [h, List.length_map, declared_paths, List.length_map, List.length_flatten,
      List.map_map]
    rfl

/-- C12 on the registry `boot a.o b.o ; main c.o ;`: the entries are those of `a.o`,
`b.o` and `c.o`. -/
theorem C12_input_list_witness :
    entries_between "INPUT(\n" ")\n" (generate_linker_script pad_laid_out [])
      = ["\ta.o\n", "\tb.o\n", "\tc.o\n"] ∧
    (entries_between "INPUT(\n" ")\n" (generate_linker_script pad_laid_out [])).map entry_path
      = ["a.o", "b.o", "c.o"] ∧
    (entries_between "INPUT(\n" ")\n" (generate_linker_script pad_laid_out [])).length = 3 :=
  C12_input_list pad_laid_out

/-- C13: after the line setting `. = 0x80001000` the script holds the segments' regions
in registry order; each region has the text region `.<name>.text`, whose body lists for
every section in declared order `<file> (.text)` and then `<file> (.data)`, followed by
the BSS region `.<name>.bss`, whose body lists in the same order `<file> (.bss)` and then
`<file> (COMMON)`. -/
theorem C13_segment_regions (segs : List segment) :
    generate_linker_script segs []
      = script_head segs ++ (segs.map segment_region).flatten ++ script_tail ∧
    (script_head segs).getLast? = some "\t. = 0x80001000;\n" ∧
    (∀ seg : segment, ∃ symbols1 symbols2 symbols3,
      symbols1.length = 3 ∧ symbols2.length = 2 ∧ symbols3.length = 1 ∧
      segment_region seg
        = symbols1 ++ ["\t." ++ seg.name ++ ".text : \x7b\n"] ++ text_body seg.sections
          ++ ["\t\x7d\n\n"] ++ symbols2
          ++ ["\t." ++ seg.name ++ ".bss : \x7b\n"] ++ bss_body seg.sections
          ++ ["\t\x7d\n\n"] ++ symbols3) ∧
    (∀ (sec : section_t) (rest : List section_t),
      text_body (sec :: rest)
        = ["\t\t" ++ sec.filename ++ " (.text)\n", "\t\t" ++ sec.filename ++ " (.data)\n"]
          ++ text_body rest ∧
      bss_body (sec :: rest)
        = ["\t\t" ++ sec.filename ++ " (.bss)\n", "\t\t" ++ sec.filename ++ " (COMMON)\n"]
          ++ bss_body rest) ∧
    text_body [] = [] ∧ bss_body [] = [] := by
  refine ⟨generate_linker_script_eq segs, ?_, fun seg => ?_, fun sec rest => ⟨rfl, rfl⟩,
    rfl, rfl⟩
  · have h : script_head segs
        = (["/* This linker script was automatically generated by the pseultra makerom tool */\n",
            "ENTRY(_boot)\n", "INPUT(\n"]
          ++ (declared_paths segs).map (fun path => "\t" ++ path ++ "\n")
          ++ [")\n", "OUTPUT(rom.elf)\n", "SECTIONS \x7b\n"]) ++ ["\t. = 0x80001000;\n"] := by
      simp [script_head]
    rw [h, List.getLast?_concat]
  · exact ⟨["\t_" ++ seg.name ++ "SegmentRomStart = 0x" ++ hex seg.rom_start ++ ";\n",
        "\t_" ++ seg.name ++ "SegmentRomEnd = 0x" ++ hex seg.rom_end ++ ";\n\n",
        "\t_" ++ seg.name ++ "SegmentTextStart = ABSOLUTE(.);\n\n"],
      ["\t_" ++ seg.name ++ "SegmentTextEnd = ABSOLUTE(.);\n\n",
        "\t_" ++ seg.name ++ "SegmentBssStart = ABSOLUTE(.);\n\n"],
      ["\t_" ++ seg.name ++ "SegmentBssEnd = ABSOLUTE(.);\n\n"],
      rfl, rfl, rfl, by simp [segment_region]⟩

theorem laid_out_lt (gs : Reader) (segs : List segment) (c : Nat) (hc : c < U32) :
    ∀ x ∈ laid_out gs segs c, x.rom_start < U32 ∧ x.rom_end < U32 := by
  induction segs generalizing c with
  | nil => simp [laid_out]
  | cons seg rest ih =>
    intro x hx
    have hn : (c + size_sum gs seg % U32) % U32 < U32 := Nat.mod_lt _ (by decide)
    simp only [laid_out, List.mem_cons] at hx
    rcases hx with rfl | hx
    · exact ⟨hc, hn⟩
    · exact ih _ hn x hx

theorem dropWhile_append_stop {α : Type} (p : α → Bool) (l r : List α) (a : α)
    (hl : ∀ x ∈ l, p x = true) (ha : p a = false) :
    (l ++ a :: r).dropWhile p = a :: r := by
  induction l with
  | nil => simp [List.dropWhile, ha]
  | cons x xs ih =>
    have hx := hl x (List.mem_cons_self _ _)
    simp only [List.cons_append, List.dropWhile_cons, hx, if_true]
    exact ih (fun y hy => hl y (List.mem_cons_of_mem _ hy))

theorem trim_assignment (c : Char) (body ws : List Char) (hc : isspace c = false)
    (hws : ∀ x ∈ ws, isspace x = true) :
    trim ('\t' :: c :: (body ++ ';' :: ws)) = c :: (body ++ [';']) := by
  have h1 : isspace '\t' = true := by decide
  have h2 : isspace ';' = false := by decide
  have h3 : (c :: (body ++ ';' :: ws)).reverse
      = ws.reverse ++ ';' :: (body.reverse ++ [c]) := by simp
  have h4 : (ws.reverse ++ ';' :: (body.reverse ++ [c])).dropWhile isspace
      = ';' :: (body.reverse ++ [c]) :=
    dropWhile_append_stop isspace _ _ _ (fun x hx => hws x (List.mem_reverse.mp hx)) h2
  simp only [trim, List.dropWhile_cons, h1, hc, if_true, Bool.false_eq_true, if_false]
  rw [h3, h4]
  simp

/-- C14, as stated, fails on the symbol names: for the laid-out registry of
`boot a.o b.o ; main c.o ;` the script defines no symbol `bootSegmentRomStart` and no
symbol `bootSegmentRomEnd`; the values `0x1000` and `0x1008` are given to
`_bootSegmentRomStart` and `_bootSegmentRomEnd`. -/
theorem C14_counterexample :
    calculate_rom_layout pad_reader pad_segments = some pad_laid_out ∧
    ¬ defines (generate_linker_script pad_laid_out []) "bootSegmentRomStart" "0x1000" ∧
    ¬ defines (generate_linker_script pad_laid_out []) "bootSegmentRomEnd" "0x1008" ∧
    defines (generate_linker_script pad_laid_out []) "_bootSegmentRomStart" "0x1000" ∧
    defines (generate_linker_script pad_laid_out []) "_bootSegmentRomEnd" "0x1008" := by
  refine ⟨by decide, ?_, ?_, ?_, ?_⟩ <;> decide

theorem defines_rom_symbol (script : Script) (name suffix digits : String) (ws : String)
    (hws : ∀ x ∈ ws.data, isspace x = true)
    (hmem : ("\t_" ++ name ++ suffix ++ " = 0x" ++ digits ++ ";" ++ ws) ∈ script) :
    defines script ("_" ++ name ++ suffix) ("0x" ++ digits) := by
  refine ⟨_, hmem, ?_⟩
  have e : ("\t_" ++ name ++ suffix ++ " = 0x" ++ digits ++ ";" ++ ws).data
      = '\t' :: '_' :: ((name.data ++ suffix.data ++ [' ', '=', ' ', '0', 'x'] ++ digits.data)
          ++ ';' :: ws.data) := by
    simp [String.data_append]
  rw [e, trim_assignment '_' _ _ (by decide) hws]
  simp [String.data_append]

/-- C14, amended: for every registry laid out by `calculate_rom_layout` and every
segment in it, the script defines the symbol `_<name>SegmentRomStart` with the
hexadecimal rendering of the segment's `rom_start` and the symbol `_<name>SegmentRomEnd`
with that of its `rom_end`. -/
theorem C14_rom_boundary_symbols (gs : Reader) (segs0 segs : List segment)
    (hlay : calculate_rom_layout gs segs0 = some segs) (seg : segment) (hseg : seg ∈ segs) :
    defines (generate_linker_script segs []) ("_" ++ seg.name ++ "SegmentRomStart")
      ("0x" ++ String.mk (Nat.toDigits 16 seg.rom_start)) ∧
    defines (generate_linker_script segs []) ("_" ++ seg.name ++ "SegmentRomEnd")
      ("0x" ++ String.mk (Nat.toDigits 16 seg.rom_end)) := by
  have hseq := calculate_rom_layout_some gs segs0 segs hlay
  subst hseq
  obtain ⟨hs, he⟩ := laid_out_lt gs segs0 0x1000 (by decide) seg hseg
  have hreg : ∀ e ∈ segment_region seg, e ∈ generate_linker_script (laid_out gs segs0 0x1000) [] := by
    intro e hmem
    rw [generate_linker_script_eq]
    apply List.mem_append_left
    apply List.mem_append_right
    exact List.mem_flatten.mpr ⟨_, List.mem_map.mpr ⟨seg, hseg, rfl⟩, hmem⟩
  have h1 : hex seg.rom_start = String.mk (Nat.toDigits 16 seg.rom_start) := by
    rw [hex, Nat.mod_eq_of_lt hs]
  have h2 : hex seg.rom_end = String.mk (Nat.toDigits 16 seg.rom_end) := by
    rw [hex, Nat.mod_eq_of_lt he]
  constructor
  · apply defines_rom_symbol _ seg.name "SegmentRomStart" _ "\n" (by decide)
    apply hreg
    rw [← h1]
    simp [segment_region, String.append_assoc]
  · apply defines_rom_symbol _ seg.name "SegmentRomEnd" _ "\n\n" (by decide)
    apply hreg
    rw [← h2]
    simp [segment_region, String.append_assoc]

/-- C14 (amended) on the segment `main` of the registry `boot a.o b.o ; main c.o ;`,
laid out as `[0x1008, 0x100c)`. -/
theorem C14_rom_boundary_symbols_witness :
    defines (generate_linker_script pad_laid_out []) "_mainSegmentRomStart" "0x1008" ∧
    defines (generate_linker_script pad_laid_out []) "_mainSegmentRomEnd" "0x100c" :=
  C14_rom_boundary_symbols pad_reader pad_segments pad_laid_out (by decide)
    ⟨"main", [pad_c], 0x1008, 0x100C⟩ (by decide)

/-! ## The region `make_rom` reads -/

theorem write_segments_restrict (gs : Reader) (names : List String) (elf : Buffer)
    (segs : List segment) (rom : Buffer)
    (h : ∀ seg ∈ segs, text_section_name seg.name ∈ names) :
    write_segments (restrict_reader gs names) elf segs rom = write_segments gs elf segs rom := by
  induction segs generalizing rom with
  | nil => rfl
  | cons seg rest ih =>
    have hseg := h seg (List.mem_cons_self _ _)
    have hrest : ∀ s ∈ rest, text_section_name s.name ∈ names :=
      fun s hs => h s (List.mem_cons_of_mem _ hs)
    have hr : restrict_reader gs names elf (text_section_name seg.name)
        = gs elf (text_section_name seg.name) := by
      simp only [restrict_reader, hseg, if_true]
    simp only [write_segments, hr, ih _ hrest]

theorem text_region_header (name : String) :
    "\t." ++ name ++ ".text : \x7b\n" = "\t" ++ text_section_name name ++ " : \x7b\n" := by
  apply String.ext
  simp [text_section_name, String.data_append]

theorem text_ne_bss (name name' : String) :
    text_section_name name ≠ bss_section_name name' := by
  intro h
  have hd := congrArg (fun s : String => s.data.reverse.head?) h
  simp [text_section_name, bss_section_name, String.data_append] at hd

theorem text_region_in_script (segs : List segment) (seg : segment) (hseg : seg ∈ segs) :
    ∃ before after, generate_linker_script segs []
      = before ++ ["\t" ++ text_section_name seg.name ++ " : \x7b\n"]
        ++ text_body seg.sections ++ ["\t\x7d\n\n"] ++ after := by
  obtain ⟨l1, l2, rfl⟩ := List.append_of_mem hseg
  refine ⟨script_head (l1 ++ seg :: l2) ++ (l1.map segment_region).flatten ++
      ["\t_" ++ seg.name ++ "SegmentRomStart = 0x" ++ hex seg.rom_start ++ ";\n",
        "\t_" ++ seg.name ++ "SegmentRomEnd = 0x" ++ hex seg.rom_end ++ ";\n\n",
        "\t_" ++ seg.name ++ "SegmentTextStart = ABSOLUTE(.);\n\n"],
    ["\t_" ++ seg.name ++ "SegmentTextEnd = ABSOLUTE(.);\n\n",
        "\t_" ++ seg.name ++ "SegmentBssStart = ABSOLUTE(.);\n\n",
        "\t." ++ seg.name ++ ".bss : \x7b\n"] ++ bss_body seg.sections
      ++ ["\t\x7d\n\n", "\t_" ++ seg.name ++ "SegmentBssEnd = ABSOLUTE(.);\n\n"]
      ++ (l2.map segment_region).flatten ++ script_tail, ?_⟩
  rw [generate_linker_script_eq, ← text_region_header]
  simp [segment_region]

theorem write_segments_inv (gs : Reader) (elf : Buffer) (segs : List segment)
    (rom out : Buffer) (h : write_segments gs elf segs rom = .ok out) :
    slices_ok gs elf segs ∧ out = rom ++ (segs.map (segment_slice gs elf)).flatten := by
  induction segs generalizing rom with
  | nil =>
    simp only [write_segments, Except.ok.injEq] at h
    exact ⟨fun x hx => by simp at hx, by simp [h]⟩
  | cons seg rest ih =>
    unfold write_segments at h
    cases hg : gs elf (text_section_name seg.name) with
    | none => rw [hg] at h; simp at h
    | some sh =>
      rw [hg] at h
      simp only at h
      split at h
      · rename_i hin
        obtain ⟨hr, ho⟩ := ih _ h
        refine ⟨fun x hx => ?_, ?_⟩
        · rcases List.mem_cons.mp hx with rfl | hx
          · simp only [slice_ok, hg]; exact hin
          · exact hr x hx
        · rw [ho]
          simp only [List.map_cons, List.flatten_cons, segment_slice, hg, List.append_assoc]
      · simp at h

theorem store32_ok (buf : Buffer) (off v : Nat) (out : Buffer)
    (h : store32 buf off v = .ok out) : out.length = buf.length := by
  unfold store32 at h
  split at h
  · simp only [Except.ok.injEq] at h
    rw [← h]
    exact put32_length buf off v (by assumption)
  · simp at h

theorem make_rom_inv (P : platform) (gs : Reader) (fs : Files) (segs : List segment)
    (rom_name bootcode : String) (img : Buffer)
    (h : make_rom P gs fs segs rom_name bootcode = .ok img) :
    ∃ elf, open_file (fopen_w fs rom_name) "rom.elf" = .ok elf ∧
      slices_ok gs elf segs ∧
      img.drop 0x1000 = (segs.map (segment_slice gs elf)).flatten := by
  unfold make_rom at h
  cases hb : open_file (fopen_w fs rom_name) bootcode with
  | error e => rw [hb] at h; simp at h
  | ok boot =>
  cases he : open_file (fopen_w fs rom_name) "rom.elf" with
  | error e => rw [hb, he] at h; simp at h
  | ok elf =>
  rw [hb, he] at h
  simp only at h
  cases h1 : store32 boot P.pi_regs (P.PI_VALUES % U32) with
  | error e => rw [h1] at h; simp at h
  | ok b1 =>
  rw [h1] at h
  simp only at h
  cases h2 : load32 elf P.entry with
  | error e => rw [h2] at h; simp at h
  | ok entry =>
  rw [h2] at h
  simp only at h
  cases h3 : store32 b1 P.boot_address entry with
  | error e => rw [h3] at h; simp at h
  | ok b2 =>
  rw [h3] at h
  simp only at h
  cases segs with
  | nil => simp at h
  | cons seg0 rest =>
  simp only at h
  cases h4 : store32 b2 P.rom_start (LE_TO_BE32 seg0.rom_start) with
  | error e => rw [h4] at h; simp at h
  | ok b3 =>
  rw [h4] at h
  simp only at h
  cases h5 : store32 b3 P.rom_length (LE_TO_BE32 (sub32 seg0.rom_end seg0.rom_start)) with
  | error e => rw [h5] at h; simp at h
  | ok b4 =>
  rw [h5] at h
  simp only at h
  split at h
  · rename_i hlen
    obtain ⟨hs, ho⟩ := write_segments_inv gs elf _ _ img h
    refine ⟨elf, rfl, hs, ?_⟩
    rw [ho]
    exact List.drop_left' (by rw [List.length_take]; omega)
  · simp at h

/-- C18: the section name `make_rom` looks up for a segment is `"." ++ name ++ ".text"`
with that segment's own name. Answers of the reader for other names do not matter;
whenever an image is produced, the reader has answered for the name of every segment on
the linked output, and the image continues after the boot block with the slices those
answers describe, each segment's own, in registry order. For every segment the script
holds a region of exactly that name, and it is the region whose body lists the `.text`
and `.data` parts of the segment's files; that name is never the name of a `.bss`
region. -/
theorem C18_lookup_is_text_region (P : platform) (gs : Reader) (fs : Files)
    (segs : List segment) (rom_name bootcode : String) :
    (∀ name : String, text_section_name name = "." ++ name ++ ".text") ∧
    make_rom P gs fs segs rom_name bootcode
      = make_rom P (restrict_reader gs (segs.map (fun seg => text_section_name seg.name)))
          fs segs rom_name bootcode ∧
    (∀ img, make_rom P gs fs segs rom_name bootcode = .ok img →
      ∃ elf, open_file (fopen_w fs rom_name) "rom.elf" = .ok elf ∧
        (∀ seg ∈ segs, ∃ sh, gs elf ("." ++ seg.name ++ ".text") = some sh ∧
          BE_TO_LE32 sh.offset + BE_TO_LE32 sh.size ≤ elf.length ∧
          segment_slice gs elf seg
            = (elf.drop (BE_TO_LE32 sh.offset)).take (BE_TO_LE32 sh.size)) ∧
        img.drop 0x1000 = (segs.map (segment_slice gs elf)).flatten) ∧
    (∀ seg ∈ segs, ∃ before after, generate_linker_script segs []
      = before ++ ["\t" ++ text_section_name seg.name ++ " : \x7b\n"]
        ++ text_body seg.sections ++ ["\t\x7d\n\n"] ++ after) ∧
    (∀ name name' : String, text_section_name name ≠ bss_section_name name') := by
  refine ⟨fun _ => rfl, ?_, fun img h => ?_, text_region_in_script segs, text_ne_bss⟩
  · have hw : ∀ elf rom,
        write_segments (restrict_reader gs (segs.map (fun seg => text_section_name seg.name)))
          elf segs rom = write_segments gs elf segs rom :=
      fun elf rom => write_segments_restrict gs _ elf segs rom
        (fun seg hs => List.mem_map.mpr ⟨seg, hs, rfl⟩)
    simp only [make_rom, hw]
  · obtain ⟨elf, he, hs, hd⟩ := make_rom_inv P gs fs segs rom_name bootcode img h
    refine ⟨elf, he, fun seg hseg => ?_, hd⟩
    have hok := hs seg hseg
    unfold slice_ok at hok
    cases hg : gs elf (text_section_name seg.name) with
    | none => rw [hg] at hok; exact absurd hok (by simp)
    | some sh =>
      rw [hg] at hok
      exact ⟨sh, hg, hok, by simp only [segment_slice, hg]⟩

/-- C18 on the registry `boot a.o b.o ; main c.o ;`: the run produces an image, the
reader is asked for `.boot.text` and `.main.text`, and the image continues with the
eight bytes of the one and the four bytes of the other. -/
theorem C18_lookup_is_text_region_witness :
    ∃ img, make_rom demo_platform pad_reader (files_with demo_boot tight_elf) pad_laid_out
        "rom.z64" "boot.bin" = .ok img ∧
      open_file (fopen_w (files_with demo_boot tight_elf) "rom.z64") "rom.elf"
        = .ok tight_elf ∧
      pad_laid_out.map (fun seg => "." ++ seg.name ++ ".text") = [".boot.text", ".main.text"] ∧
      img.drop 0x1000 = [3, 3, 3, 3, 3, 3, 3, 3, 4, 4, 4, 4] := by
  obtain ⟨img, hok, -⟩ :=
    make_rom_length demo_platform pad_reader (files_with demo_boot tight_elf) pad_laid_out
      "rom.z64" "boot.bin" demo_boot tight_elf (by decide) (by decide) (by decide) rfl rfl
      (Nat.le_of_eq demo_boot_length.symm) (by decide) (by decide)
  obtain ⟨elf, he, -, hd⟩ :=
    (C18_lookup_is_text_region demo_platform pad_reader (files_with demo_boot tight_elf)
      pad_laid_out "rom.z64" "boot.bin").2.2.1 img hok
  have he' : open_file (fopen_w (files_with demo_boot tight_elf) "rom.z64") "rom.elf"
      = .ok tight_elf := rfl
  rw [he'] at he
  cases he
  exact ⟨img, hok, he', by decide, by rw [hd]; decide⟩

/-! ## Claims about the segment and section model -/

theorem foldl_add_section (secs : List section_t) (seg : segment) :
    (secs.foldl (fun s sec => add_section sec s) seg).sections = seg.sections ++ secs ∧
    (secs.foldl (fun s sec => add_section sec s) seg).name = seg.name := by
  induction secs generalizing seg with
  | nil => simp
  | cons sec rest ih =>
    obtain ⟨h1, h2⟩ := ih (add_section sec seg)
    rw [List.foldl_cons, h1, h2]
    simp [add_section]

/-- C15: `create_segment(name)` followed by `add_section` for `s1, ..., sk` gives a
segment of that name whose sections are exactly `s1, ..., sk` in this order (none for
`k = 0`); `add_segment(seg)` makes the registry one longer, puts `seg` at the last index
and leaves every earlier entry where it was. -/
theorem C15_insertion_order (name : String) (secs : List section_t) (seg : segment)
    (segments : List segment) :
    (create_segment name).sections = [] ∧
    (secs.foldl (fun s sec => add_section sec s) (create_segment name)).name = name ∧
    (secs.foldl (fun s sec => add_section sec s) (create_segment name)).sections = secs ∧
    (secs.foldl (fun s sec => add_section sec s) (create_segment name)).sections.length
      = secs.length ∧
    (∀ i : Nat,
      (secs.foldl (fun s sec => add_section sec s) (create_segment name)).sections[i]?
        = secs[i]?) ∧
    (add_segment seg segments).length = segments.length + 1 ∧
    (add_segment seg segments)[segments.length]? = some seg ∧
    (∀ i : Nat, i < segments.length → (add_segment seg segments)[i]? = segments[i]?) := by
  obtain ⟨h1, h2⟩ := foldl_add_section secs (create_segment name)
  have h3 : (secs.foldl (fun s sec => add_section sec s) (create_segment name)).sections
      = secs := by rw [h1]; rfl
  refine ⟨rfl, by rw [h2]; rfl, h3, by rw [h3], fun i => by rw [h3], ?_, ?_, ?_⟩
  · simp [add_segment]
  · simp [add_segment]
  · intro i hi
    simp only [add_segment]
    exact List.getElem?_append_left hi

/-! ## Claim about the sizes of the formatted strings -/

theorem strlen_append (a b : String) : strlen (a ++ b) = strlen a + strlen b := by
  simp only [strlen, String.length_append]

/-- C19: the section name `.<name>.text` of `make_rom` fits its allocation of
`strlen(name) + 7` bytes exactly, but the link command `<ld_path> -T link.ld -G0` of
`main` needs `strlen(ld_path) + 16` bytes with its terminating byte, one more than the
`strlen(ld_path) + 15` allocated: for `ld` the text takes 18 bytes and 17 are
allocated. -/
theorem C19_formatted_string_sizes :
    (∀ name : String, strlen (text_section_name name) + 1 = section_name_alloc name) ∧
    (∀ ld_path : String, strlen (link_command ld_path) + 1 = link_command_alloc ld_path + 1) ∧
    link_command_alloc "ld" = 17 ∧ strlen (link_command "ld") + 1 = 18 := by
  have h1 : strlen " -T link.ld -G0" = 15 := by decide
  have h2 : strlen "." = 1 := by decide
  have h3 : strlen ".text" = 5 := by decide
  refine ⟨fun name => ?_, fun ld_path => ?_, by decide, by decide⟩
  · rw [text_section_name, strlen_append, strlen_append, h2, h3, section_name_alloc]
    omega
  · rw [link_command, strlen_append, h1, link_command_alloc]
    omega

/-! ## Lemmas about `process_specfile` -/

theorem skip_space_le (inp : Stream) : (skip_space inp).length ≤ inp.length :=
  (List.dropWhile_sublist isspace).length_le

theorem scan_objfile_some (inp : Stream) (w : String) (rest : Stream)
    (h : scan_objfile inp = (some w, rest)) : rest.length < inp.length := by
  unfold scan_objfile at h
  simp only at h
  split at h
  · simp at h
  · rename_i hne
    have hrest := (Prod.mk.inj h).2
    rw [← hrest]
    have h1 := skip_space_le inp
    have h2 := skip_space_le
      ((skip_space inp).drop
        ((List.takeWhile (fun x => x != '\n' && x != ' ' && x != ';')
          (skip_space inp)).take 255).length)
    have h3 : 0 < ((List.takeWhile (fun x => x != '\n' && x != ' ' && x != ';')
        (skip_space inp)).take 255).length := List.length_pos.mpr hne
    have h4 : ((List.takeWhile (fun x => x != '\n' && x != ' ' && x != ';')
        (skip_space inp)).take 255).length ≤ (skip_space inp).length :=
      Nat.le_trans (List.take_sublist _ _).length_le
        (List.takeWhile_sublist _).length_le
    rw [List.length_drop] at h2
    omega

theorem scan_objfile_none (inp rest : Stream) (h : scan_objfile inp = (none, rest)) :
    rest.length ≤ inp.length := by
  unfold scan_objfile at h
  simp only at h
  split at h
  · rw [← (Prod.mk.inj h).2]; exact skip_space_le inp
  · simp at h

theorem read_sections_stable (pe : Nat → String → String) (fs : Files) (fuel fuel' : Nat)
    (inp : Stream) (seg : segment) (h : inp.length < fuel) (h' : inp.length < fuel') :
    read_sections pe fs fuel inp seg = read_sections pe fs fuel' inp seg := by
  induction fuel generalizing fuel' inp seg with
  | zero => omega
  | succ f ih =>
    cases fuel' with
    | zero => omega
    | succ f' =>
      unfold read_sections
      cases hs : scan_objfile inp with
      | mk r rest =>
        cases r with
        | none => rfl
        | some w =>
          have hlt := scan_objfile_some inp w rest hs
          simp only
          cases create_section (pe seg.sections.length w) fs w with
          | error e => rfl
          | ok sec => exact ih f' rest _ (by omega) (by omega)

theorem read_sections_le (pe : Nat → String → String) (fs : Files) (fuel : Nat)
    (inp : Stream) (seg seg' : segment)
    (rest : Stream) (h : read_sections pe fs fuel inp seg = .ok (seg', rest)) :
    rest.length ≤ inp.length := by
  induction fuel generalizing inp seg with
  | zero =>
    simp only [read_sections, Except.ok.injEq, Prod.mk.injEq] at h
    rw [h.2]
  | succ f ih =>
    unfold read_sections at h
    cases hs : scan_objfile inp with
    | mk r rest1 =>
      rw [hs] at h
      cases r with
      | none =>
        simp only [Except.ok.injEq, Prod.mk.injEq] at h
        rw [← h.2]
        exact scan_objfile_none inp rest1 hs
      | some w =>
        have hlt := scan_objfile_some inp w rest1 hs
        simp only at h
        cases hc : create_section (pe seg.sections.length w) fs w with
        | error e => rw [hc] at h; simp at h
        | ok sec =>
          rw [hc] at h
          have := ih rest1 _ h
          omega

theorem scan_name_some (inp : Stream) (w : String) (rest : Stream)
    (h : scan_name inp = some (w, rest)) : rest.length < inp.length := by
  unfold scan_name at h
  have h1 := skip_space_le inp
  split at h
  · simp at h
  · rename_i c tl hsk
    simp only [Option.some.injEq, Prod.mk.injEq] at h
    rw [← h.2]
    have h2 := skip_space_le
      ((c :: tl).drop ((List.takeWhile (fun x => !isspace x) (c :: tl)).take 15).length)
    rw [List.length_drop] at h2
    have hc : isspace c = false := by
      have hmem : c ∈ skip_space inp := by rw [hsk]; exact List.mem_cons_self _ _
      cases hh : isspace c with
      | false => rfl
      | true =>
        have := List.head_dropWhile_not isspace inp (by
          show List.dropWhile isspace inp ≠ []
          intro he
          unfold skip_space at hsk
          rw [he] at hsk
          exact List.noConfusion hsk)
        unfold skip_space at hsk
        simp only [hsk, List.head_cons] at this
        rw [hh] at this
        exact absurd this (by decide)
    have h3 : 0 < ((List.takeWhile (fun x => !isspace x) (c :: tl)).take 15).length := by
      simp [List.takeWhile_cons, hc]
    have h4 : ((List.takeWhile (fun x => !isspace x) (c :: tl)).take 15).length
        ≤ (c :: tl).length :=
      Nat.le_trans (List.take_sublist _ _).length_le
        (List.takeWhile_sublist _).length_le
    rw [hsk] at h1
    omega

theorem scan_semicolon_le (inp : Stream) : (scan_semicolon inp).2.length ≤ inp.length := by
  unfold scan_semicolon
  have h1 := skip_space_le inp
  split
  · simp
  · rename_i c tl hsk
    rw [hsk] at h1
    split
    · have := skip_space_le tl
      simp only [List.length_cons] at h1
      show (skip_space tl).length ≤ inp.length
      omega
    · exact h1

theorem read_segments_stable (heap : Heap) (fs : Files) (fuel fuel' : Nat) (inp : Stream)
    (segs : List segment) (h : inp.length < fuel) (h' : inp.length < fuel') :
    read_segments heap fs fuel inp segs = read_segments heap fs fuel' inp segs := by
  induction fuel generalizing fuel' inp segs with
  | zero => omega
  | succ f ih =>
    cases fuel' with
    | zero => omega
    | succ f' =>
      unfold read_segments
      cases hs : scan_name inp with
      | none => rfl
      | some r =>
        obtain ⟨w, inp1⟩ := r
        have hlt := scan_name_some inp w inp1 hs
        simp only
        cases hr : read_sections (heap segs.length) fs (inp1.length + 1) inp1
            (create_segment w) with
        | error e => rfl
        | ok r2 =>
          obtain ⟨seg, inp2⟩ := r2
          have hle := read_sections_le _ fs _ inp1 _ seg inp2 hr
          have hsc := scan_semicolon_le inp2
          simp only
          cases hsem : scan_semicolon inp2 with
          | mk eof inp3 =>
            rw [hsem] at hsc
            cases eof with
            | true => rfl
            | false => exact ih f' inp3 _ (by simp only at hsc; omega) (by simp only at hsc; omega)

theorem process_specfile_fuel (heap : Heap) (fs : Files) (inp : Stream) (fuel : Nat)
    (h : inp.length < fuel) :
    process_specfile heap fs (some inp) = read_segments heap fs fuel inp [] :=
  read_segments_stable heap fs _ fuel inp [] (Nat.lt_succ_self _) h

/-! ## Claims about `create_section` and `main` -/

/-- C16: when the argument count is not five, `main` prints the usage message and
returns 0; the files, the list of opened paths and the list of commands run are as
before, so no file was opened, no linker script or image written and no linker run. -/
theorem C16_usage_on_wrong_argc (P : platform) (gs : Reader)
    (system : String → Files → Files) (heap : Heap) (argv : List String) (w : world)
    (h : argv.length ≠ 5) :
    main P gs system heap argv w
      = .ok (0, { files := w.files, stdout := w.stdout ++ [usage_message],
                  opened := w.opened, commands := w.commands }) := by
  unfold main
  split
  · simp at h
  · rfl

/-- C16 on a call with a single argument. -/
theorem C16_usage_on_wrong_argc_witness :
    ["makerom", "spec.txt"].length ≠ 5 ∧
    main demo_platform pad_reader (fun _ fs => fs) quiet_heap ["makerom", "spec.txt"]
        empty_world
      = .ok (0, { files := empty_world.files, stdout := empty_world.stdout ++ [usage_message],
                  opened := empty_world.opened, commands := empty_world.commands }) :=
  ⟨by decide,
    C16_usage_on_wrong_argc demo_platform pad_reader (fun _ fs => fs) quiet_heap
      ["makerom", "spec.txt"] empty_world (by decide)⟩

end Makerom
